import Mathlib

/-!
# Verification of the chacha20 Go package

A shallow embedding of the chacha20 package (Ron Charlton's public-domain Go
implementation of the ChaCha stream cipher, parallel version v6.8x) together
with proofs about it.  Machine integers are modelled as `Nat` with explicit
reduction `% 2^32` (for `uint32`) and `% 2^64` (for `uint64`) at the points
where the Go code wraps.  Byte slices are `List Nat`.  Functions that can
panic in Go return `Option`; `none` models a panic.
-/

namespace ChaCha20

/-- 2^32, the modulus of Go's `uint32` arithmetic. -/
def two32 : Nat := 4294967296

/-- 2^64, the modulus of Go's `uint64` arithmetic. -/
def two64 : Nat := 18446744073709551616

/-- 2^63, the sign boundary of a 64-bit word: a Go `int` whose bit pattern
is `two63` or more is negative, and a Go slice holds fewer than `two63`
elements. -/
def two63 : Nat := 9223372036854775808

/-- Go `uint32` addition: wraps modulo 2^32. -/
def add32 (a b : Nat) : Nat := (a + b) % two32

/-- Go expression `(t << s) | (t >> (32 - s))` on a `uint32` `t`:
the left shift wraps modulo 2^32, the right shift is logical. -/
def rotl32 (t s : Nat) : Nat := ((t <<< s) % two32) ||| (t >>> (32 - s))

/-- `binary.LittleEndian.Uint32(l[off:])`:
`uint32(b0) | uint32(b1)<<8 | uint32(b2)<<16 | uint32(b3)<<24`. -/
def leU32 (l : List Nat) (off : Nat) : Nat :=
  l.getD off 0 ||| (l.getD (off+1) 0 <<< 8) ||| (l.getD (off+2) 0 <<< 16) |||
    (l.getD (off+3) 0 <<< 24)

/-- `binary.LittleEndian.PutUint32`: serialize a word as four bytes,
least significant first (each Go `byte(...)` conversion truncates mod 256). -/
def putU32LE (w : Nat) : List Nat :=
  [w % 256, (w >>> 8) % 256, (w >>> 16) % 256, (w >>> 24) % 256]

/-- ChaCha block length in bytes (`blockLen` in the source). -/
def blockLen : Nat := 64

/-- `defaultRounds` in the source. -/
def defaultRounds : Nat := 20

/-- Default `blocksPerChunk` in the source. -/
def blocksPerChunkDefault : Nat := 200

/-- Default `maxGoroutines` in the source. -/
def maxGoroutinesDefault : Nat := 300

/-- The bytes of the Go string `"expand 32-byte k"` (`sigma` in the source). -/
def sigma : List Nat := [101,120,112,97,110,100,32,51,50,45,98,121,116,101,32,107]

/-- The bytes of the Go string `"expand 16-byte k"` (`tau` in the source). -/
def tau : List Nat := [101,120,112,97,110,100,32,49,54,45,98,121,116,101,32,107]

/-- Sixteen working `uint32` words, the individual variables
`a b c d e f g h i j k l m n o p` of `salsa20_wordtobyte`. -/
abbrev W16 := Nat × Nat × Nat × Nat × Nat × Nat × Nat × Nat ×
  Nat × Nat × Nat × Nat × Nat × Nat × Nat × Nat

/-- One iteration of the round loop of `salsa20_wordtobyte` (the
individual-variable version, chacha20.go v6.8x): four column quarter-rounds
followed by four diagonal quarter-rounds, transcribed line by line with the
temporary `t`. -/
def doubleRoundGo : W16 → W16 :=
  fun (a, b, c, d, e, f, g, h, i, j, k, l, m, n, o, p) =>
    let a := add32 a e
    let t := m ^^^ a
    let m := rotl32 t 16
    let i := add32 i m
    let t := e ^^^ i
    let e := rotl32 t 12
    let a := add32 a e
    let t := m ^^^ a
    let m := rotl32 t 8
    let i := add32 i m
    let t := e ^^^ i
    let e := rotl32 t 7

    let b := add32 b f
    let t := n ^^^ b
    let n := rotl32 t 16
    let j := add32 j n
    let t := f ^^^ j
    let f := rotl32 t 12
    let b := add32 b f
    let t := n ^^^ b
    let n := rotl32 t 8
    let j := add32 j n
    let t := f ^^^ j
    let f := rotl32 t 7

    let c := add32 c g
    let t := o ^^^ c
    let o := rotl32 t 16
    let k := add32 k o
    let t := g ^^^ k
    let g := rotl32 t 12
    let c := add32 c g
    let t := o ^^^ c
    let o := rotl32 t 8
    let k := add32 k o
    let t := g ^^^ k
    let g := rotl32 t 7

    let d := add32 d h
    let t := p ^^^ d
    let p := rotl32 t 16
    let l := add32 l p
    let t := h ^^^ l
    let h := rotl32 t 12
    let d := add32 d h
    let t := p ^^^ d
    let p := rotl32 t 8
    let l := add32 l p
    let t := h ^^^ l
    let h := rotl32 t 7

    let a := add32 a f
    let t := p ^^^ a
    let p := rotl32 t 16
    let k := add32 k p
    let t := f ^^^ k
    let f := rotl32 t 12
    let a := add32 a f
    let t := p ^^^ a
    let p := rotl32 t 8
    let k := add32 k p
    let t := f ^^^ k
    let f := rotl32 t 7

    let b := add32 b g
    let t := m ^^^ b
    let m := rotl32 t 16
    let l := add32 l m
    let t := g ^^^ l
    let g := rotl32 t 12
    let b := add32 b g
    let t := m ^^^ b
    let m := rotl32 t 8
    let l := add32 l m
    let t := g ^^^ l
    let g := rotl32 t 7

    let c := add32 c h
    let t := n ^^^ c
    let n := rotl32 t 16
    let i := add32 i n
    let t := h ^^^ i
    let h := rotl32 t 12
    let c := add32 c h
    let t := n ^^^ c
    let n := rotl32 t 8
    let i := add32 i n
    let t := h ^^^ i
    let h := rotl32 t 7

    let d := add32 d e
    let t := o ^^^ d
    let o := rotl32 t 16
    let j := add32 j o
    let t := e ^^^ j
    let e := rotl32 t 12
    let d := add32 d e
    let t := o ^^^ d
    let o := rotl32 t 8
    let j := add32 j o
    let t := e ^^^ j
    let e := rotl32 t 7

    (a, b, c, d, e, f, g, h, i, j, k, l, m, n, o, p)

/-- The Go loop `for z = rounds; z > 0; z -= 2` runs `(rounds+1)/2` times. -/
def roundIter (rounds : Nat) : Nat := (rounds + 1) / 2

/-- Reading `input[0]` … `input[15]` into the sixteen working variables. -/
def readWords (input : List Nat) : W16 :=
  (input.getD 0 0, input.getD 1 0, input.getD 2 0, input.getD 3 0,
   input.getD 4 0, input.getD 5 0, input.getD 6 0, input.getD 7 0,
   input.getD 8 0, input.getD 9 0, input.getD 10 0, input.getD 11 0,
   input.getD 12 0, input.getD 13 0, input.getD 14 0, input.getD 15 0)

/-- `salsa20_wordtobyte` (the current, individual-variable version of
chacha20.go v6.8x): copy the sixteen input words into working variables, run
the round loop, add the original words back (feed-forward) and serialize all
sixteen results little-endian into 64 output bytes. -/
def salsa20_wordtobyte (input : List Nat) (rounds : Nat) : List Nat :=
  match doubleRoundGo^[roundIter rounds] (readWords input) with
  | (a, b, c, d, e, f, g, h, i, j, k, l, m, n, o, p) =>
    putU32LE (add32 a (input.getD 0 0)) ++ putU32LE (add32 b (input.getD 1 0)) ++
    putU32LE (add32 c (input.getD 2 0)) ++ putU32LE (add32 d (input.getD 3 0)) ++
    putU32LE (add32 e (input.getD 4 0)) ++ putU32LE (add32 f (input.getD 5 0)) ++
    putU32LE (add32 g (input.getD 6 0)) ++ putU32LE (add32 h (input.getD 7 0)) ++
    putU32LE (add32 i (input.getD 8 0)) ++ putU32LE (add32 j (input.getD 9 0)) ++
    putU32LE (add32 k (input.getD 10 0)) ++ putU32LE (add32 l (input.getD 11 0)) ++
    putU32LE (add32 m (input.getD 12 0)) ++ putU32LE (add32 n (input.getD 13 0)) ++
    putU32LE (add32 o (input.getD 14 0)) ++ putU32LE (add32 p (input.getD 15 0))

/-- One quarter-round of the original array-based `salsa20_wordtobyte`
(chacha20.go v2.x, transcribed from the unrolled x[...] assignments): the
eight sequential updates at positions `ia ib ic id`. -/
def qrAt (x : List Nat) (ia ib ic id : Nat) : List Nat :=
  let x := x.set ia (add32 (x.getD ia 0) (x.getD ib 0))
  let x := x.set id (rotl32 ((x.getD id 0) ^^^ (x.getD ia 0)) 16)
  let x := x.set ic (add32 (x.getD ic 0) (x.getD id 0))
  let x := x.set ib (rotl32 ((x.getD ib 0) ^^^ (x.getD ic 0)) 12)
  let x := x.set ia (add32 (x.getD ia 0) (x.getD ib 0))
  let x := x.set id (rotl32 ((x.getD id 0) ^^^ (x.getD ia 0)) 8)
  let x := x.set ic (add32 (x.getD ic 0) (x.getD id 0))
  let x := x.set ib (rotl32 ((x.getD ib 0) ^^^ (x.getD ic 0)) 7)
  x

/-- One iteration of the round loop of the array-based version: column
quarter-rounds at (0,4,8,12), (1,5,9,13), (2,6,10,14), (3,7,11,15), then
diagonal quarter-rounds at (0,5,10,15), (1,6,11,12), (2,7,8,13), (3,4,9,14). -/
def doubleRoundArr (x : List Nat) : List Nat :=
  let x := qrAt x 0 4 8 12
  let x := qrAt x 1 5 9 13
  let x := qrAt x 2 6 10 14
  let x := qrAt x 3 7 11 15
  let x := qrAt x 0 5 10 15
  let x := qrAt x 1 6 11 12
  let x := qrAt x 2 7 8 13
  let x := qrAt x 3 4 9 14
  x

/-- The array-based `salsa20_wordtobyte` (chacha20.go v2.x): copy the state
into `x[0..15]`, run the round loop, add the input back and serialize
little-endian. -/
def salsa20_wordtobyte_arr (input : List Nat) (rounds : Nat) : List Nat :=
  let x0 := (List.range 16).map (fun i => input.getD i 0)
  let x := doubleRoundArr^[roundIter rounds] x0
  ((List.range 16).map (fun i => putU32LE (add32 (x.getD i 0) (input.getD i 0)))).flatten

/-- Modelled from the spec: the quarter-round
`a+=b; d=rotl(d^a,16); c+=d; b=rotl(b^c,12); a+=b; d=rotl(d^a,8); c+=d;
b=rotl(b^c,7)` with all arithmetic mod 2^32. -/
def quarterRound (a b c d : Nat) : Nat × Nat × Nat × Nat :=
  let a := add32 a b
  let d := rotl32 (d ^^^ a) 16
  let c := add32 c d
  let b := rotl32 (b ^^^ c) 12
  let a := add32 a b
  let d := rotl32 (d ^^^ a) 8
  let c := add32 c d
  let b := rotl32 (b ^^^ c) 7
  (a, b, c, d)

/-- Modelled from the spec: one double-round — the four column quarter-rounds
followed by the four diagonal quarter-rounds over the fixed index groupings. -/
def doubleRoundRef : W16 → W16 :=
  fun (a, b, c, d, e, f, g, h, i, j, k, l, m, n, o, p) =>
    let (a, e, i, m) := quarterRound a e i m
    let (b, f, j, n) := quarterRound b f j n
    let (c, g, k, o) := quarterRound c g k o
    let (d, h, l, p) := quarterRound d h l p
    let (a, f, k, p) := quarterRound a f k p
    let (b, g, l, m) := quarterRound b g l m
    let (c, h, i, n) := quarterRound c h i n
    let (d, e, j, o) := quarterRound d e j o
    (a, b, c, d, e, f, g, h, i, j, k, l, m, n, o, p)

/-- Modelled from the spec: the reference block transform — copy the state
into 16 working words, perform `r/2` double-rounds, add the original state
words back (feed-forward), serialize little-endian into 64 bytes. -/
def chachaBlockRef (input : List Nat) (rounds : Nat) : List Nat :=
  match doubleRoundRef^[rounds / 2] (readWords input) with
  | (a, b, c, d, e, f, g, h, i, j, k, l, m, n, o, p) =>
    putU32LE (add32 a (input.getD 0 0)) ++ putU32LE (add32 b (input.getD 1 0)) ++
    putU32LE (add32 c (input.getD 2 0)) ++ putU32LE (add32 d (input.getD 3 0)) ++
    putU32LE (add32 e (input.getD 4 0)) ++ putU32LE (add32 f (input.getD 5 0)) ++
    putU32LE (add32 g (input.getD 6 0)) ++ putU32LE (add32 h (input.getD 7 0)) ++
    putU32LE (add32 i (input.getD 8 0)) ++ putU32LE (add32 j (input.getD 9 0)) ++
    putU32LE (add32 k (input.getD 10 0)) ++ putU32LE (add32 l (input.getD 11 0)) ++
    putU32LE (add32 m (input.getD 12 0)) ++ putU32LE (add32 n (input.getD 13 0)) ++
    putU32LE (add32 o (input.getD 14 0)) ++ putU32LE (add32 p (input.getD 15 0))

/-- The sixteen working variables written out as a 16-element list, for
comparing the individual-variable version with the array-based one. -/
def tupleToList : W16 → List Nat :=
  fun (a, b, c, d, e, f, g, h, i, j, k, l, m, n, o, p) =>
    [a, b, c, d, e, f, g, h, i, j, k, l, m, n, o, p]

/-! ## The context -/

/-- `Ctx` (chacha20.go v6.8x): the sixteen state words, the 64-byte output
buffer of the most recently generated block, the consumption cursor `next`,
the exhaustion flag `eof`, the round count, and the parallel-processing
tuning fields.  `guardCap` is the capacity of the `guard` channel, i.e. the
bound on simultaneous goroutines; it never influences the computed bytes. -/
structure Ctx where
  input : List Nat
  output : List Nat
  next : Nat
  eof : Bool
  rounds : Nat
  parallel : Bool
  blocksPerChunk : Nat
  guardCap : Nat
deriving Repr, DecidableEq

/-- The two counter words of a state, read as one 64-bit value the way
`GetCounter` does (each word is serialized `PutUint32`, i.e. truncated
mod 2^32, and the eight bytes are read back as a little-endian `uint64`). -/
def ctrOf (inp : List Nat) : Nat :=
  inp.getD 12 0 % two32 + two32 * (inp.getD 13 0 % two32)

/-- Store a 64-bit block number into the two counter words, the way `Seek`
does (`PutUint64 n` then two `Uint32` reads): word 12 gets the low half,
word 13 the high half. -/
def setCtr (inp : List Nat) (n : Nat) : List Nat :=
  (inp.set 12 (n % two32)).set 13 (n / two32 % two32)

/-- `Seek` moves the context directly to 64-byte block number `n`:
counter words set from `n`, exhaustion cleared, buffered block marked
fully consumed. -/
def Ctx.Seek (x : Ctx) (n : Nat) : Ctx :=
  { x with input := setCtr x.input n, eof := false, next := blockLen }

/-- `GetCounter` returns the context's 64-bit block counter. -/
def Ctx.GetCounter (x : Ctx) : Nat := ctrOf x.input

/-- `KeySetup`: panics (`none`) unless the key has 16 or 32 bytes; loads the
key words little-endian into words 4–11 (a 16-byte key is used twice) and
the selected constants (`sigma` for 32-byte keys, `tau` for 16-byte keys)
into words 0–3. -/
def Ctx.KeySetup (x : Ctx) (k : List Nat) : Option Ctx :=
  if k.length ≠ 16 ∧ k.length ≠ 32 then none
  else
    let inp := x.input
    let inp := inp.set 4 (leU32 k 0)
    let inp := inp.set 5 (leU32 k 4)
    let inp := inp.set 6 (leU32 k 8)
    let inp := inp.set 7 (leU32 k 12)
    let k2 := if k.length = 32 then k.drop 16 else k
    let constants := if k.length = 32 then sigma else tau
    let inp := inp.set 8 (leU32 k2 0)
    let inp := inp.set 9 (leU32 k2 4)
    let inp := inp.set 10 (leU32 k2 8)
    let inp := inp.set 11 (leU32 k2 12)
    let inp := inp.set 0 (leU32 constants 0)
    let inp := inp.set 1 (leU32 constants 4)
    let inp := inp.set 2 (leU32 constants 8)
    let inp := inp.set 3 (leU32 constants 12)
    some { x with input := inp }

/-- `IvSetup`: panics (`none`) unless the iv has 8 bytes; calls `Seek 0` and
loads the nonce words 14–15 little-endian. -/
def Ctx.IvSetup (x : Ctx) (iv : List Nat) : Option Ctx :=
  if iv.length ≠ 8 then none
  else
    let x1 := x.Seek 0
    some { x1 with input := (x1.input.set 14 (leU32 iv 0)).set 15 (leU32 iv 4) }

/-- The context literal built by `New` before `KeySetup`/`IvSetup` run
(Go zero values for the arrays, `next = blockLen`, default tuning). -/
def baseCtx : Ctx :=
  { input := List.replicate 16 0
    output := List.replicate blockLen 0
    next := blockLen
    eof := false
    rounds := defaultRounds
    parallel := true
    blocksPerChunk := blocksPerChunkDefault
    guardCap := maxGoroutinesDefault }

/-- `New key iv`: allocate a context with the default tuning and set it up
with the caller's key and iv. -/
def New (key iv : List Nat) : Option Ctx :=
  (baseCtx.KeySetup key).bind (fun x => x.IvSetup iv)

/-- `NewSmallMemory key iv`: same as `New` but with parallel processing off. -/
def NewSmallMemory (key iv : List Nat) : Option Ctx :=
  (New key iv).map (fun x => { x with parallel := false })

/-- `SetRounds`: panics (`none`) unless `r` is 8, 12 or 20. -/
def Ctx.SetRounds (x : Ctx) (r : Nat) : Option Ctx :=
  if r = 8 ∨ r = 12 ∨ r = 20 then some { x with rounds := r } else none

/-- `UseParallel`. -/
def Ctx.UseParallel (x : Ctx) (b : Bool) : Ctx := { x with parallel := b }

/-- `TuneParallel`: a positive first argument replaces `blocksPerChunk`, a
positive second argument replaces the guard-channel capacity. -/
def Ctx.TuneParallel (x : Ctx) (blocksPerGoroutine maxGoroutines : Nat) : Ctx :=
  { x with
    blocksPerChunk := if 0 < blocksPerGoroutine then blocksPerGoroutine
                      else x.blocksPerChunk
    guardCap := if 0 < maxGoroutines then maxGoroutines else x.guardCap }

/-! ## The keystream engine -/

/-- The mutable per-call engine state of `Encrypt`: the sixteen state words,
the 64-byte output buffer, the cursor `idx` and the exhaustion flag. -/
structure EngSt where
  inp : List Nat
  out : List Nat
  idx : Nat
  eof : Bool
deriving Repr, DecidableEq

/-- The sequential counter increment of `Encrypt`:
`x.input[12]++; if x.input[12]==0 { x.input[13]++; if x.input[13]==0 { x.eof = true } }`. -/
def incCounterSeq (inp : List Nat) (eof : Bool) : List Nat × Bool :=
  let w12 := (inp.getD 12 0 + 1) % two32
  let inp := inp.set 12 w12
  if w12 = 0 then
    let w13 := (inp.getD 13 0 + 1) % two32
    ((inp.set 13 w13), if w13 = 0 then true else eof)
  else (inp, eof)

/-- The goroutine counter increment:
`r.input[12]++; if r.input[12]==0 { r.input[13]++ }` — no exhaustion flag. -/
def incCounterNoEof (inp : List Nat) : List Nat :=
  let w12 := (inp.getD 12 0 + 1) % two32
  let inp := inp.set 12 w12
  if w12 = 0 then inp.set 13 ((inp.getD 13 0 + 1) % two32) else inp

/-- The sequential byte loop of `Encrypt`
(`for ; n < size; n++ { if idx >= blockLen { if x.eof { break }; generate };
c[n] = m[n] ^ x.output[idx]; idx++ }`): processes the message bytes one at a
time, regenerating the buffered block whenever the cursor reaches 64.
Returns the produced ciphertext bytes and the final engine state. -/
def seqLoop (rounds : Nat) : List Nat → EngSt → List Nat × EngSt
  | [], s => ([], s)
  | b :: rest, s =>
    if blockLen ≤ s.idx then
      if s.eof then ([], s)
      else
        let out := salsa20_wordtobyte s.inp rounds
        let ie := incCounterSeq s.inp s.eof
        let r := seqLoop rounds rest ⟨ie.1, out, 1, ie.2⟩
        ((b ^^^ out.getD 0 0) :: r.1, r.2)
    else
      let r := seqLoop rounds rest ⟨s.inp, s.out, s.idx + 1, s.eof⟩
      ((b ^^^ s.out.getD s.idx 0) :: r.1, r.2)

/-- The leading loop of the parallel path of `Encrypt`
(`for ; idx < blockLen && n < size; n++ { … }`): same body as `seqLoop` but
the loop also stops as soon as the cursor reaches 64, so that chunk
processing starts block-aligned.  (The regeneration branch inside the body
is unreachable because the loop condition requires `idx < blockLen`.) -/
def leadLoop (rounds : Nat) : List Nat → EngSt → List Nat × EngSt
  | [], s => ([], s)
  | b :: rest, s =>
    if s.idx < blockLen then
      if blockLen ≤ s.idx then
        if s.eof then ([], s)
        else
          let out := salsa20_wordtobyte s.inp rounds
          let ie := incCounterSeq s.inp s.eof
          let r := leadLoop rounds rest ⟨ie.1, out, 1, ie.2⟩
          ((b ^^^ out.getD 0 0) :: r.1, r.2)
      else
        let r := leadLoop rounds rest ⟨s.inp, s.out, s.idx + 1, s.eof⟩
        ((b ^^^ s.out.getD s.idx 0) :: r.1, r.2)
    else ([], s)

/-- One goroutine of the chunk phase: on a private copy of the state words
(already seeked to its chunk's starting block) it generates `blocksPerChunk`
blocks, advancing its private counter without exhaustion tracking, and XORs
them against its message segment. -/
def workerBlocks (rounds : Nat) : Nat → List Nat → List Nat → List Nat
  | 0, _, _ => []
  | bpc + 1, inp, mseg =>
    let out := salsa20_wordtobyte inp rounds
    let inp2 := incCounterNoEof inp
    (mseg.take blockLen).zipWith (· ^^^ ·) out ++
      workerBlocks rounds bpc inp2 (mseg.drop blockLen)

/-- The chunk-dispatch loop of `Encrypt`: chunk `j` gets a private copy of
the context seeked to `baseBlock + j*blocksPerChunk` (the running base is
advanced with `uint64` wrap-around) and a `blockLen*blocksPerChunk`-byte
message segment.  Returns all chunk output concatenated (worker completion
order is irrelevant: each writes a disjoint slice) and the final base. -/
def chunkPhase (rounds bpc : Nat) : Nat → Nat → List Nat → List Nat → List Nat × Nat
  | 0, base, _, _ => ([], base)
  | k + 1, base, inp, mrem =>
    let w := workerBlocks rounds bpc (setCtr inp base) (mrem.take (blockLen * bpc))
    let r := chunkPhase rounds bpc k ((base + bpc) % two64) inp (mrem.drop (blockLen * bpc))
    (w ++ r.1, r.2)

/-- Write `p` into `c` starting at offset `off`, leaving the rest of `c`. -/
def splice (c : List Nat) (off : Nat) (p : List Nat) : List Nat :=
  c.take off ++ p ++ c.drop (off + p.length)

/-- Re-install an engine state into a context. -/
def writeBack (x : Ctx) (s : EngSt) : Ctx :=
  { x with input := s.inp, output := s.out, next := s.idx, eof := s.eof }

/-- The chunk-dispatch decision of the parallel path of `Encrypt`
(`var chunkLen = blockLen * blocksPerChunk; if size-n > chunkLen*2 {
baseBlock := x.GetCounter(); chunkCount := uint64((size-n)/chunkLen);
if baseBlock+chunkCount*uint64(x.blocksPerChunk) > baseBlock { … } }`).

`blocksPerChunk` is a Go `int`, so `chunkLen` is computed with wrap-around
64-bit arithmetic: `chunkLenW` is its bit pattern and `twiceW` that of
`chunkLen*2`; a bit pattern of `two63` or more reads as a negative value,
which is below the non-negative remaining length `rem = size - n`, and
whose truncating quotient into `rem` is the negated quotient of the
magnitudes, converted to `uint64` modulo `two64`.

The result is `some cc` with the `chunkCount` of a dispatched goroutine
loop, `some 0` when `Encrypt` falls through to the sequential loop without
dispatching (a passing counter guard forces `chunkCount ≥ 1`, so `0` is
unambiguous), and `none` when the program dies: a `chunkLen` that wraps to
exactly 0 is a division by zero at `(size-n)/chunkLen`, and a dispatched
goroutine writes `blockLen*blocksPerChunk` bytes, which for
`blockLen*blocksPerChunk ≥ two63` necessarily runs past the end of `c` —
a Go slice holds fewer than `two63` bytes — for an index-out-of-range
crash. -/
def chunkDecision (bpc rem base : Nat) : Option Nat :=
  let chunkLenW := blockLen * bpc % two64
  let twiceW := chunkLenW * 2 % two64
  if two63 ≤ twiceW ∨ twiceW < rem then
    if chunkLenW = 0 then none
    else
      let cc := if two63 ≤ chunkLenW
        then (two64 - rem / (two64 - chunkLenW)) % two64
        else rem / chunkLenW
      if base < (base + cc * bpc % two64) % two64 then
        if two63 ≤ blockLen * bpc then none else some cc
      else some 0
  else some 0

/-- `Encrypt m c` (chacha20.go v6.8x).  Returns `none` on a crash
(destination shorter than source, invoked on an exhausted context whose
buffered block is fully consumed, or a fatal chunk dispatch — see
`chunkDecision`), otherwise `some (n, err, c', x')` with `n` the produced
byte count, `err = true` for the terminal `io.EOF` result, `c'` the
destination after the writes and `x'` the updated context.

The parallel path first consumes leftover buffered bytes (`leadLoop`), then
consults `chunkDecision`: a positive chunk count is processed with
goroutines (`chunkPhase`, each chunk `blockLen*blocksPerChunk` bytes — in
the dispatching region `blockLen*blocksPerChunk < two63`, so the product
equals Go's wrapped `chunkLen`) and the context is reseeked past the
chunks; the remainder falls through to the sequential loop. -/
def Ctx.Encrypt (x : Ctx) (m c : List Nat) : Option (Nat × Bool × List Nat × Ctx) :=
  if m.length = 0 then some (0, false, c, x)
  else if c.length < m.length then none
  else if x.eof ∧ blockLen ≤ x.next then none
  else
    let s0 : EngSt := ⟨x.input, x.output, x.next, x.eof⟩
    if x.parallel then
      let r1 := leadLoop x.rounds m s0
      let p1 := r1.1
      let s1 := r1.2
      let n1 := p1.length
      if s1.eof ∧ blockLen ≤ s1.idx then
        some (n1, true, splice c 0 p1, writeBack x s1)
      else
        let base := ctrOf s1.inp
        match chunkDecision x.blocksPerChunk (m.length - n1) base with
        | none => none
        | some cc =>
          if 0 < cc then
            let pr := chunkPhase x.rounds x.blocksPerChunk cc base s1.inp (m.drop n1)
            let n2 := n1 + blockLen * x.blocksPerChunk * cc
            let s2 : EngSt := ⟨setCtr s1.inp pr.2, s1.out, blockLen, false⟩
            let r3 := seqLoop x.rounds (m.drop n2) s2
            let n := n2 + r3.1.length
            some (n, r3.2.eof ∧ blockLen ≤ r3.2.idx,
                  splice (splice (splice c 0 p1) n1 pr.1) n2 r3.1, writeBack x r3.2)
          else
            let r3 := seqLoop x.rounds (m.drop n1) s1
            let n := n1 + r3.1.length
            some (n, r3.2.eof ∧ blockLen ≤ r3.2.idx,
                  splice (splice c 0 p1) n1 r3.1, writeBack x r3.2)
    else
      let r := seqLoop x.rounds m s0
      some (r.1.length, r.2.eof ∧ blockLen ≤ r.2.idx, splice c 0 r.1, writeBack x r.2)

/-- `Decrypt c m`: panics on an exhausted, fully consumed context or when
the destination is shorter than the source; otherwise it is `Encrypt`. -/
def Ctx.Decrypt (x : Ctx) (c m : List Nat) : Option (Nat × Bool × List Nat × Ctx) :=
  if x.eof ∧ blockLen ≤ x.next then none
  else if m.length < c.length then none
  else x.Encrypt c m

/-- `Keystream stream`: panics when already exhausted and at least one block
is requested; otherwise encrypts a fresh all-zero source into `stream`.
Returns the filled stream and the updated context. -/
def Ctx.Keystream (x : Ctx) (stream : List Nat) : Option (List Nat × Ctx) :=
  if x.eof ∧ blockLen ≤ stream.length then none
  else (x.Encrypt (List.replicate stream.length 0) stream).map
    (fun r => (r.2.2.1, r.2.2.2))

/-- `XORKeyStream dst src`: the `crypto/cipher.Stream` entry point; panics
when already exhausted and at least one block is requested, or when `dst` is
shorter than `src`; otherwise it is `Encrypt src dst`. -/
def Ctx.XORKeyStream (x : Ctx) (dst src : List Nat) : Option (List Nat × Ctx) :=
  if x.eof ∧ blockLen ≤ src.length then none
  else if dst.length < src.length then none
  else (x.Encrypt src dst).map (fun r => (r.2.2.1, r.2.2.2))

/-- `Read b`: the `io.Reader` entry point; panics when already exhausted and
at least one block is requested; otherwise encrypts a fresh all-zero source
into `b`, returning the count, the `io.EOF` flag, the filled buffer and the
updated context. -/
def Ctx.Read (x : Ctx) (b : List Nat) : Option (Nat × Bool × List Nat × Ctx) :=
  if x.eof ∧ blockLen ≤ b.length then none
  else x.Encrypt (List.replicate b.length 0) b

/-! ## Basic lemmas -/

theorem getD_set_ne (l : List Nat) (i j a : Nat) (h : i ≠ j) :
    (l.set i a).getD j 0 = l.getD j 0 := by
  simp [List.getD_eq_getElem?_getD, List.getElem?_set, h]

theorem getD_set_self (l : List Nat) (i a : Nat) (h : i < l.length) :
    (l.set i a).getD i 0 = a := by
  simp [List.getD_eq_getElem?_getD, List.getElem?_set, h]

theorem putU32LE_length (w : Nat) : (putU32LE w).length = 4 := rfl

theorem salsa_length (inp : List Nat) (rounds : Nat) :
    (salsa20_wordtobyte inp rounds).length = 64 := by
  unfold salsa20_wordtobyte
  rcases doubleRoundGo^[roundIter rounds] (readWords inp) with
    ⟨a, b, c, d, e, f, g, h, i, j, k, l, m, n, o, p⟩
  simp [putU32LE]

theorem setCtr_length (inp : List Nat) (v : Nat) :
    (setCtr inp v).length = inp.length := by
  simp [setCtr]

theorem getD_setCtr_12 (inp : List Nat) (v : Nat) (h : inp.length = 16) :
    (setCtr inp v).getD 12 0 = v % two32 := by
  rw [setCtr, getD_set_ne _ _ _ _ (by omega), getD_set_self]
  omega

theorem getD_setCtr_13 (inp : List Nat) (v : Nat) (h : inp.length = 16) :
    (setCtr inp v).getD 13 0 = v / two32 % two32 := by
  rw [setCtr, getD_set_self]
  simp [h]

theorem getD_setCtr_ne (inp : List Nat) (v i : Nat) (h12 : i ≠ 12) (h13 : i ≠ 13) :
    (setCtr inp v).getD i 0 = inp.getD i 0 := by
  rw [setCtr, getD_set_ne _ _ _ _ (fun hc => h13 hc.symm),
    getD_set_ne _ _ _ _ (fun hc => h12 hc.symm)]

theorem two32_pos : 0 < two32 := by norm_num [two32]

theorem two32_mul_two32 : two32 * two32 = two64 := by norm_num [two32, two64]

theorem set_ctr_words (inp : List Nat) (a b c : Nat) :
    ((inp.set 12 a).set 13 b).set 12 c = (inp.set 12 c).set 13 b := by
  rw [List.set_comm _ _ _ (by omega : (12:Nat) ≠ 13), List.set_set,
    List.set_comm _ _ _ (by omega : (13:Nat) ≠ 12)]

theorem set_ctr_words2 (inp : List Nat) (a b c d : Nat) :
    (((inp.set 12 a).set 13 b).set 12 c).set 13 d = (inp.set 12 c).set 13 d := by
  rw [set_ctr_words, List.set_set]

theorem ctrOf_setCtr (inp : List Nat) (v : Nat) (h : inp.length = 16) (hv : v < two64) :
    ctrOf (setCtr inp v) = v := by
  rw [ctrOf, getD_setCtr_12 _ _ h, getD_setCtr_13 _ _ h]
  simp only [two32, two64] at *
  omega

theorem setCtr_setCtr (inp : List Nat) (u v : Nat) :
    setCtr (setCtr inp u) v = setCtr inp v := set_ctr_words2 ..

theorem getD_lt (l : List Nat) (i : Nat) (h : i < l.length) :
    l[i]? = some (l.getD i 0) := by
  rw [List.getElem?_eq_getElem h, List.getD_eq_getElem?_getD,
    List.getElem?_eq_getElem h]
  rfl

theorem setCtr_ctrOf (inp : List Nat) (h : inp.length = 16)
    (h12 : inp.getD 12 0 < two32) (h13 : inp.getD 13 0 < two32) :
    setCtr inp (ctrOf inp) = inp := by
  have e12 : ctrOf inp % two32 = inp.getD 12 0 := by
    rw [ctrOf]; simp only [two32] at *; omega
  have e13 : ctrOf inp / two32 % two32 = inp.getD 13 0 := by
    rw [ctrOf]; simp only [two32] at *; omega
  rw [setCtr, e12, e13]
  apply List.ext_getElem?
  intro i
  rcases Nat.lt_trichotomy i 13 with hi | hi | hi
  · rw [List.getElem?_set_ne (by omega)]
    rcases Nat.lt_trichotomy i 12 with hj | hj | hj
    · rw [List.getElem?_set_ne (by omega)]
    · subst hj
      rw [List.getElem?_set_self (by simp [h]), getD_lt _ _ (by omega)]
    · omega
  · subst hi
    rw [List.getElem?_set_self (by simp [h]), getD_lt _ _ (by omega)]
  · rw [List.getElem?_set_ne (by omega), List.getElem?_set_ne (by omega)]

theorem incCounterSeq_setCtr (inp : List Nat) (v : Nat) (h : inp.length = 16)
    (hv : v < two64) :
    incCounterSeq (setCtr inp v) false =
      (setCtr inp ((v + 1) % two64), decide (v + 1 = two64)) := by
  have h12 : (setCtr inp v).getD 12 0 = v % two32 := getD_setCtr_12 _ _ h
  have h13 : ∀ w, ((setCtr inp v).set 12 w).getD 13 0 = v / two32 % two32 :=
    fun w => by rw [getD_set_ne _ _ _ _ (by omega), getD_setCtr_13 _ _ h]
  simp only [incCounterSeq, h12, h13]
  by_cases hwrap : (v % two32 + 1) % two32 = 0
  · rw [if_pos hwrap]
    by_cases hwrap2 : (v / two32 % two32 + 1) % two32 = 0
    · have hval : v + 1 = two64 := by simp only [two32, two64] at *; omega
      have hz : (v + 1) % two64 = 0 := by rw [hval, Nat.mod_self]
      rw [if_pos hwrap2, Prod.mk.injEq]
      refine ⟨?_, by simp [hval]⟩
      rw [hz, hwrap, hwrap2]
      unfold setCtr
      rw [set_ctr_words2]
      norm_num
    · have hne : ¬ (v + 1 = two64) := by simp only [two32, two64] at *; omega
      have hlt : (v + 1) % two64 = v + 1 := by
        apply Nat.mod_eq_of_lt; simp only [two32, two64] at *; omega
      have e1 : (0:Nat) = (v + 1) % two32 := by simp only [two32] at *; omega
      have e2 : (v / two32 % two32 + 1) % two32 = (v + 1) / two32 % two32 := by
        simp only [two32] at *; omega
      rw [if_neg hwrap2, Prod.mk.injEq]
      refine ⟨?_, by simp [hne]⟩
      rw [hlt, hwrap]
      unfold setCtr
      rw [set_ctr_words2, e2]
      conv_lhs => rw [e1]
  · rw [if_neg hwrap]
    have hne : ¬ (v + 1 = two64) := by simp only [two32, two64] at *; omega
    have hlt : (v + 1) % two64 = v + 1 := by
      apply Nat.mod_eq_of_lt; simp only [two32, two64] at *; omega
    have e1 : (v % two32 + 1) % two32 = (v + 1) % two32 := by
      simp only [two32] at *; omega
    have e2 : v / two32 % two32 = (v + 1) / two32 % two32 := by
      simp only [two32] at *; omega
    rw [Prod.mk.injEq]
    refine ⟨?_, by simp [hne]⟩
    rw [hlt]
    unfold setCtr
    rw [set_ctr_words, e1, e2]

theorem incCounterNoEof_setCtr (inp : List Nat) (v : Nat) (h : inp.length = 16)
    (hv : v < two64) :
    incCounterNoEof (setCtr inp v) = setCtr inp ((v + 1) % two64) := by
  have h12 : (setCtr inp v).getD 12 0 = v % two32 := getD_setCtr_12 _ _ h
  have h13 : ∀ w, ((setCtr inp v).set 12 w).getD 13 0 = v / two32 % two32 :=
    fun w => by rw [getD_set_ne _ _ _ _ (by omega), getD_setCtr_13 _ _ h]
  simp only [incCounterNoEof, h12, h13]
  by_cases hwrap : (v % two32 + 1) % two32 = 0
  · rw [if_pos hwrap]
    have e1 : (0:Nat) = (v + 1) % two64 % two32 := by
      simp only [two32, two64] at *; omega
    have e2 : (v / two32 % two32 + 1) % two32 = (v + 1) % two64 / two32 % two32 := by
      simp only [two32, two64] at *; omega
    rw [hwrap]
    unfold setCtr
    rw [set_ctr_words2, e2]
    conv_lhs => rw [e1]
  · rw [if_neg hwrap]
    have e1 : (v % two32 + 1) % two32 = (v + 1) % two64 % two32 := by
      simp only [two32, two64] at *; omega
    have e2 : v / two32 % two32 = (v + 1) % two64 / two32 % two32 := by
      simp only [two32, two64] at *; omega
    unfold setCtr
    rw [set_ctr_words, e1, e2]

/-! ## The keystream view of the loops -/

/-- The keystream bytes that `seqLoop` XORs against the message: the same
recursion driven only by the number of bytes requested. -/
def seqKS (rounds : Nat) : Nat → EngSt → List Nat × EngSt
  | 0, s => ([], s)
  | len + 1, s =>
    if blockLen ≤ s.idx then
      if s.eof then ([], s)
      else
        let out := salsa20_wordtobyte s.inp rounds
        let ie := incCounterSeq s.inp s.eof
        let r := seqKS rounds len ⟨ie.1, out, 1, ie.2⟩
        (out.getD 0 0 :: r.1, r.2)
    else
      let r := seqKS rounds len ⟨s.inp, s.out, s.idx + 1, s.eof⟩
      (s.out.getD s.idx 0 :: r.1, r.2)

/-- `seqLoop` produces the message XORed with the keystream of `seqKS`, and
the same final state; in particular the keystream and the final state do not
depend on the message content. -/
theorem seqLoop_eq_seqKS (rounds : Nat) (ms : List Nat) (s : EngSt) :
    seqLoop rounds ms s =
      (ms.zipWith (· ^^^ ·) (seqKS rounds ms.length s).1,
       (seqKS rounds ms.length s).2) := by
  induction ms generalizing s with
  | nil => simp [seqLoop, seqKS]
  | cons b rest ih =>
    rw [seqLoop, List.length_cons, seqKS]
    by_cases h1 : blockLen ≤ s.idx
    · rw [if_pos h1, if_pos h1]
      by_cases h2 : s.eof = true
      · simp [h2]
      · have h2' : s.eof = false := by revert h2; cases s.eof <;> simp
        simp only [h2', if_false, Bool.false_eq_true]
        rw [ih]
        simp [List.zipWith]
    · rw [if_neg h1, if_neg h1, ih]
      simp [List.zipWith]

/-- A stuck engine (exhausted, buffered block fully consumed) yields nothing
and never changes. -/
theorem seqKS_stuck (rounds len : Nat) (s : EngSt) (he : s.eof = true)
    (hi : blockLen ≤ s.idx) : seqKS rounds len s = ([], s) := by
  cases len with
  | zero => rfl
  | succ n => rw [seqKS, if_pos hi, if_pos he]

/-- Splitting a keystream request: the second part continues from the state
the first part ends in. -/
theorem seqKS_append (rounds l1 l2 : Nat) (s : EngSt) :
    seqKS rounds (l1 + l2) s =
      ((seqKS rounds l1 s).1 ++ (seqKS rounds l2 (seqKS rounds l1 s).2).1,
       (seqKS rounds l2 (seqKS rounds l1 s).2).2) := by
  induction l1 generalizing s with
  | zero => simp [seqKS]
  | succ n ih =>
    have hshift : n + 1 + l2 = (n + l2) + 1 := by omega
    rw [hshift, seqKS, seqKS]
    by_cases h1 : blockLen ≤ s.idx
    · rw [if_pos h1, if_pos h1]
      by_cases h2 : s.eof = true
      · rw [if_pos h2, if_pos h2]
        rw [seqKS_stuck rounds l2 s h2 h1]
        simp
      · have h2' : s.eof = false := by revert h2; cases s.eof <;> simp
        simp only [h2', if_false, Bool.false_eq_true]
        rw [ih]
        simp
    · rw [if_neg h1, if_neg h1, ih]
      simp

/-- Consuming from the buffered block: as long as the request fits in the
rest of the buffer, bytes come straight out of `out` and only the cursor
moves. -/
theorem seqKS_consume (rounds len : Nat) (s : EngSt) (hfit : len + s.idx ≤ blockLen)
    (hout : s.out.length = blockLen) :
    seqKS rounds len s =
      ((s.out.drop s.idx).take len, ⟨s.inp, s.out, s.idx + len, s.eof⟩) := by
  induction len generalizing s with
  | zero => simp [seqKS]
  | succ n ih =>
    have hlt : s.idx < blockLen := by omega
    rw [seqKS, if_neg (by omega)]
    rw [ih ⟨s.inp, s.out, s.idx + 1, s.eof⟩ (by simp; omega) (by simpa using hout)]
    rw [Prod.mk.injEq]
    refine ⟨?_, by rw [show s.idx + 1 + n = s.idx + (n + 1) from by omega]⟩
    have hidx : s.idx < s.out.length := by omega
    rw [List.drop_eq_getElem_cons hidx]
    simp only [List.take_succ_cons]
    congr 1
    rw [List.getD_eq_getElem?_getD, List.getElem?_eq_getElem hidx]
    rfl

/-- The keystream block at absolute block number `v` for a given state. -/
def blockAt (rounds : Nat) (inp : List Nat) (v : Nat) : List Nat :=
  salsa20_wordtobyte (setCtr inp v) rounds

/-- `k` consecutive keystream blocks starting at block number `base`
(the block number advances with 64-bit wrap-around). -/
def ksBlocks (rounds : Nat) (inp : List Nat) : Nat → Nat → List Nat
  | _, 0 => []
  | base, k + 1 =>
    blockAt rounds inp base ++ ksBlocks rounds inp ((base + 1) % two64) k

theorem blockAt_length (rounds : Nat) (inp : List Nat) (v : Nat) :
    (blockAt rounds inp v).length = 64 := salsa_length ..

theorem ksBlocks_length (rounds : Nat) (inp : List Nat) (base k : Nat) :
    (ksBlocks rounds inp base k).length = blockLen * k := by
  induction k generalizing base with
  | zero => rfl
  | succ n ih =>
    rw [ksBlocks, List.length_append, blockAt_length, ih]
    simp [blockLen]
    omega

theorem cons_getD_drop (l : List Nat) (h : l.length = 64) :
    l.getD 0 0 :: (l.drop 1).take 63 = l := by
  cases l with
  | nil => simp at h
  | cons a t =>
    simp only [List.getD_cons_zero, List.drop_succ_cons, List.drop_zero]
    rw [List.take_of_length_le (by simp at h; omega)]

/-- Generating and consuming one whole block from a block-aligned state. -/
theorem seqKS_block1 (rounds : Nat) (inp out : List Nat) (v : Nat)
    (h16 : inp.length = 16) (hv : v < two64) :
    seqKS rounds blockLen ⟨setCtr inp v, out, blockLen, false⟩ =
      (blockAt rounds inp v,
       ⟨setCtr inp ((v + 1) % two64), blockAt rounds inp v, blockLen,
        decide (v + 1 = two64)⟩) := by
  rw [show blockLen = 63 + 1 from rfl, seqKS]
  rw [if_pos (by norm_num [blockLen])]
  rw [if_neg (by simp)]
  rw [incCounterSeq_setCtr inp v h16 hv]
  dsimp only
  rw [seqKS_consume _ _ _ (by norm_num [blockLen]) (by simp [salsa_length, blockLen])]
  simp only
  rw [Prod.mk.injEq]
  constructor
  · exact cons_getD_drop _ (salsa_length (setCtr inp v) rounds)
  · rw [EngSt.mk.injEq]
    exact ⟨rfl, rfl, rfl, rfl⟩

/-- The block phase: from a block-aligned, unexhausted state at counter `v`,
requesting `64*k` bytes yields exactly the `k` blocks `v, v+1, …, v+k-1`,
moves the counter to `v+k` and sets exhaustion exactly when the counter
wrapped (`v+k = 2^64`). -/
theorem seqKS_blocks (rounds : Nat) (k : Nat) (inp out : List Nat) (v : Nat)
    (h16 : inp.length = 16) (hv0 : v < two64) (hv : v + k ≤ two64) :
    seqKS rounds (blockLen * k) ⟨setCtr inp v, out, blockLen, false⟩ =
      (ksBlocks rounds inp v k,
       ⟨setCtr inp ((v + k) % two64),
        (if k = 0 then out else blockAt rounds inp (v + k - 1)), blockLen,
        decide (v + k = two64)⟩) := by
  induction k generalizing v out with
  | zero =>
    simp only [Nat.mul_zero, seqKS, ksBlocks, if_pos rfl, Nat.add_zero]
    rw [Nat.mod_eq_of_lt hv0]
    simp [Nat.ne_of_lt hv0]
  | succ n ih =>
    rw [show blockLen * (n + 1) = blockLen + blockLen * n from by ring, seqKS_append,
      seqKS_block1 rounds inp out v h16 hv0]
    by_cases hend : v + 1 = two64
    · have hn : n = 0 := by omega
      subst hn
      simp only [Nat.mul_zero, seqKS, ksBlocks, List.append_nil]
      rw [Prod.mk.injEq]
      refine ⟨rfl, ?_⟩
      rw [EngSt.mk.injEq]
      refine ⟨rfl, ?_, rfl, rfl⟩
      rw [if_neg (by omega)]
      congr 1
    · have hlt : v + 1 < two64 := by omega
      have hmod : (v + 1) % two64 = v + 1 := Nat.mod_eq_of_lt hlt
      rw [hmod, show (decide (v + 1 = two64)) = false from by simp [hend]]
      rw [ih (blockAt rounds inp v) (v + 1) hlt (by omega)]
      simp only
      rw [Prod.mk.injEq]
      constructor
      · simp only [ksBlocks, hmod]
      · rw [EngSt.mk.injEq]
        refine ⟨by rw [show v + 1 + n = v + (n + 1) from by omega], ?_,
          rfl, by rw [show v + 1 + n = v + (n + 1) from by omega]⟩
        by_cases hn : n = 0
        · subst hn
          simp
        · rw [if_neg hn, if_neg (by omega)]
          congr 1
          omega

/-- The keystream view of `leadLoop`. -/
def leadKS (rounds : Nat) : Nat → EngSt → List Nat × EngSt
  | 0, s => ([], s)
  | len + 1, s =>
    if s.idx < blockLen then
      if blockLen ≤ s.idx then
        if s.eof then ([], s)
        else
          let out := salsa20_wordtobyte s.inp rounds
          let ie := incCounterSeq s.inp s.eof
          let r := leadKS rounds len ⟨ie.1, out, 1, ie.2⟩
          (out.getD 0 0 :: r.1, r.2)
      else
        let r := leadKS rounds len ⟨s.inp, s.out, s.idx + 1, s.eof⟩
        (s.out.getD s.idx 0 :: r.1, r.2)
    else ([], s)

theorem leadLoop_eq_leadKS (rounds : Nat) (ms : List Nat) (s : EngSt) :
    leadLoop rounds ms s =
      (ms.zipWith (· ^^^ ·) (leadKS rounds ms.length s).1,
       (leadKS rounds ms.length s).2) := by
  induction ms generalizing s with
  | nil => simp [leadLoop, leadKS]
  | cons b rest ih =>
    rw [leadLoop, List.length_cons, leadKS]
    by_cases h0 : s.idx < blockLen
    · rw [if_pos h0, if_pos h0, if_neg (by omega), if_neg (by omega), ih]
      simp [List.zipWith]
    · rw [if_neg h0, if_neg h0]
      simp

/-- The leading loop requests exactly `min (64 - idx) len` bytes of the
sequential engine: it consumes the rest of the buffered block, at most. -/
theorem leadKS_eq_seqKS (rounds len : Nat) (s : EngSt) :
    leadKS rounds len s = seqKS rounds (min (blockLen - s.idx) len) s := by
  induction len generalizing s with
  | zero => simp [leadKS, seqKS]
  | succ n ih =>
    by_cases h0 : s.idx < blockLen
    · have hmin : min (blockLen - s.idx) (n + 1) =
          (min (blockLen - (s.idx + 1)) n) + 1 := by omega
      rw [leadKS, if_pos h0, if_neg (by omega), hmin, seqKS, if_neg (by omega), ih]
    · have hmin : min (blockLen - s.idx) (n + 1) = 0 := by omega
      rw [leadKS, if_neg h0, hmin, seqKS]

/-- From a block-aligned state the engine's behaviour does not depend on the
stale output buffer: the bytes and the final words, cursor and exhaustion
flag agree (the final buffer itself may differ only when nothing was
generated). -/
theorem seqKS_out_irrel (rounds len : Nat) (inp o1 o2 : List Nat) (idx : Nat)
    (eof : Bool) (hidx : blockLen ≤ idx) :
    (seqKS rounds len ⟨inp, o1, idx, eof⟩).1 =
      (seqKS rounds len ⟨inp, o2, idx, eof⟩).1 ∧
    (seqKS rounds len ⟨inp, o1, idx, eof⟩).2.inp =
      (seqKS rounds len ⟨inp, o2, idx, eof⟩).2.inp ∧
    (seqKS rounds len ⟨inp, o1, idx, eof⟩).2.idx =
      (seqKS rounds len ⟨inp, o2, idx, eof⟩).2.idx ∧
    (seqKS rounds len ⟨inp, o1, idx, eof⟩).2.eof =
      (seqKS rounds len ⟨inp, o2, idx, eof⟩).2.eof ∧
    (blockLen ≤ (seqKS rounds len ⟨inp, o1, idx, eof⟩).2.idx ∨
      (seqKS rounds len ⟨inp, o1, idx, eof⟩).2.out =
        (seqKS rounds len ⟨inp, o2, idx, eof⟩).2.out) := by
  cases len with
  | zero => exact ⟨rfl, rfl, rfl, rfl, Or.inl hidx⟩
  | succ n =>
    rw [seqKS, seqKS, if_pos hidx, if_pos hidx]
    by_cases he : eof = true
    · rw [if_pos he, if_pos he]
      exact ⟨rfl, rfl, rfl, rfl, Or.inl hidx⟩
    · rw [if_neg he, if_neg he]
      exact ⟨rfl, rfl, rfl, rfl, Or.inr rfl⟩

/-- A goroutine's work: exactly the keystream blocks of its counter range,
XORed over its message segment. -/
theorem workerBlocks_eq (rounds : Nat) (bpc : Nat) (inp mseg : List Nat) (v : Nat)
    (h16 : inp.length = 16) (hv : v < two64) (hlen : blockLen * bpc ≤ mseg.length) :
    workerBlocks rounds bpc (setCtr inp v) mseg =
      (mseg.take (blockLen * bpc)).zipWith (· ^^^ ·) (ksBlocks rounds inp v bpc) := by
  induction bpc generalizing v mseg with
  | zero => simp [workerBlocks, ksBlocks]
  | succ n ih =>
    rw [workerBlocks, incCounterNoEof_setCtr inp v h16 hv]
    rw [ih (mseg.drop blockLen) ((v + 1) % two64) (Nat.mod_lt _ (by norm_num [two64]))
      (by rw [List.length_drop]; simp only [blockLen] at *; omega)]
    simp only [ksBlocks]
    rw [show salsa20_wordtobyte (setCtr inp v) rounds = blockAt rounds inp v from rfl]
    rw [show blockLen * (n + 1) = blockLen + blockLen * n from by ring]
    rw [List.take_add,
      List.zipWith_append _ _ _ _ _ (by
        rw [List.length_take, blockAt_length]
        simp only [blockLen] at *
        omega)]

theorem ksBlocks_split (rounds : Nat) (inp : List Nat) (v k1 k2 : Nat)
    (hv : v < two64) :
    ksBlocks rounds inp v (k1 + k2) =
      ksBlocks rounds inp v k1 ++ ksBlocks rounds inp ((v + k1) % two64) k2 := by
  induction k1 generalizing v with
  | zero =>
    rw [Nat.zero_add, ksBlocks, List.nil_append, Nat.add_zero, Nat.mod_eq_of_lt hv]
  | succ n ih =>
    rw [show n + 1 + k2 = (n + k2) + 1 from by omega, ksBlocks, ksBlocks,
      ih _ (Nat.mod_lt _ (by norm_num [two64])), List.append_assoc, Nat.mod_add_mod,
      show v + 1 + n = v + (n + 1) from by omega]

/-- The chunk phase: exactly `bpc*cc` consecutive keystream blocks starting
at `base`, XORed over the message, and the base advanced past them. -/
theorem chunkPhase_eq (rounds bpc cc : Nat) (inp mrem : List Nat) (base : Nat)
    (h16 : inp.length = 16) (hb : base < two64)
    (hlen : blockLen * bpc * cc ≤ mrem.length) :
    chunkPhase rounds bpc cc base inp mrem =
      ((mrem.take (blockLen * bpc * cc)).zipWith (· ^^^ ·)
        (ksBlocks rounds inp base (bpc * cc)),
       (base + bpc * cc) % two64) := by
  induction cc generalizing base mrem with
  | zero =>
    simp only [chunkPhase, Nat.mul_zero, ksBlocks, List.take_zero, List.zipWith_nil_right,
      List.zipWith]
    rw [Nat.add_zero, Nat.mod_eq_of_lt hb]
  | succ n ih =>
    have hCL : blockLen * bpc ≤ blockLen * bpc * (n + 1) :=
      Nat.le_mul_of_pos_right _ (by omega)
    have hsplit : blockLen * bpc * (n + 1) = blockLen * bpc + blockLen * bpc * n := by
      ring
    rw [chunkPhase,
      workerBlocks_eq rounds bpc inp (mrem.take (blockLen * bpc)) base h16 hb
        (by rw [List.length_take]; simp only [blockLen] at *; omega),
      List.take_take, Nat.min_self,
      ih (mrem.drop (blockLen * bpc)) ((base + bpc) % two64)
        (Nat.mod_lt _ (by norm_num [two64]))
        (by rw [List.length_drop]; simp only [blockLen] at *; omega)]
    rw [Prod.mk.injEq]
    constructor
    · rw [show blockLen * bpc * (n + 1) = blockLen * bpc + blockLen * bpc * n from by ring,
        List.take_add,
        show bpc * (n + 1) = bpc + bpc * n from by ring,
        ksBlocks_split rounds inp base bpc (bpc * n) hb,
        List.zipWith_append _ _ _ _ _ (by
          rw [List.length_take, ksBlocks_length]
          simp only [blockLen] at *
          omega)]
    · rw [Nat.mod_add_mod]
      have harith : base + bpc + bpc * n = base + bpc * (n + 1) := by ring
      rw [harith]

theorem splice_zero (c p : List Nat) : splice c 0 p = p ++ c.drop p.length := by
  simp [splice]

theorem splice_splice (c p q : List Nat) :
    splice (splice c 0 p) p.length q = splice c 0 (p ++ q) := by
  rw [splice_zero, splice, splice_zero]
  rw [List.take_left, List.drop_append, List.drop_drop, List.append_assoc,
    List.length_append]
  rw [List.append_assoc]

theorem zipWith_xor_cancel (m ks : List Nat) (h : m.length ≤ ks.length) :
    (m.zipWith (· ^^^ ·) ks).zipWith (· ^^^ ·) ks = m := by
  induction m generalizing ks with
  | nil => simp
  | cons b rest ih =>
    cases ks with
    | nil => simp at h
    | cons k kr =>
      simp only [List.zipWith]
      rw [ih kr (by simpa using h)]
      congr 1
      rw [Nat.xor_assoc, Nat.xor_self, Nat.xor_zero]

theorem ctrOf_lt (inp : List Nat) : ctrOf inp < two64 := by
  rw [ctrOf]
  simp only [two32, two64]
  omega

theorem zipWith_take_left (l1 l2 : List Nat) (n : Nat) (h : l2.length ≤ n) :
    (l1.take n).zipWith (· ^^^ ·) l2 = l1.zipWith (· ^^^ ·) l2 := by
  induction l1 generalizing l2 n with
  | nil => simp
  | cons a t ih =>
    cases l2 with
    | nil => simp
    | cons b u =>
      cases n with
      | zero => simp at h
      | succ k =>
        simp only [List.take_succ_cons, List.zipWith]
        rw [ih u k (by simpa using h)]

/-- The observable part of an `Encrypt` result: everything except the
context's buffered output block (which is dead data whenever the cursor
says the block is fully consumed). -/
def encObs : Option (Nat × Bool × List Nat × Ctx) →
    Option (Nat × Bool × List Nat × (List Nat × Nat × Bool))
  | none => none
  | some (n, e, c, x) => some (n, e, c, (x.input, x.next, x.eof))

/-- Like `encObs` but also keeping the buffered output block whenever the
cursor says it is still live (`next < blockLen`). -/
def encObsFull : Option (Nat × Bool × List Nat × Ctx) →
    Option (Nat × Bool × List Nat × (List Nat × Nat × Bool × List Nat))
  | none => none
  | some (n, e, c, x) =>
    some (n, e, c, (x.input, x.next, x.eof,
      if x.next < blockLen then x.output else []))

theorem encObs_of_full (o1 o2 : Option (Nat × Bool × List Nat × Ctx))
    (h : encObsFull o1 = encObsFull o2) : encObs o1 = encObs o2 := by
  cases o1 with
  | none =>
    cases o2 with
    | none => rfl
    | some r2 =>
      rcases r2 with ⟨n, e, c, x⟩
      simp [encObsFull] at h
  | some r1 =>
    rcases r1 with ⟨n1, e1, c1, x1⟩
    cases o2 with
    | none => simp [encObsFull] at h
    | some r2 =>
      rcases r2 with ⟨n2, e2, c2, x2⟩
      simp only [encObsFull, Option.some.injEq, Prod.mk.injEq] at h
      simp only [encObs, Option.some.injEq, Prod.mk.injEq]
      exact ⟨h.1, h.2.1, h.2.2.1, h.2.2.2.1, h.2.2.2.2.1, h.2.2.2.2.2.1⟩

/-- For a positive `blocksPerChunk` small enough that `chunkLen*2` stays
below the sign bit (any `blocksPerChunk < 2^56`), the chunk decision is the
exact arithmetic of the source: dispatch `(size-n)/chunkLen` chunks when
more than two chunks of input remain and the counter guard passes. -/
theorem chunkDecision_small (bpc rem base : Nat) (hbpc : 0 < bpc)
    (hsm : bpc < 72057594037927936) :
    chunkDecision bpc rem base =
      some (if blockLen * bpc * 2 < rem ∧
          base < (base + rem / (blockLen * bpc) * bpc % two64) % two64 then
        rem / (blockLen * bpc) else 0) := by
  have hCL : blockLen * bpc % two64 = blockLen * bpc :=
    Nat.mod_eq_of_lt (by simp only [blockLen, two64]; omega)
  have h2 : blockLen * bpc * 2 % two64 = blockLen * bpc * 2 :=
    Nat.mod_eq_of_lt (by simp only [blockLen, two64]; omega)
  have hneg : ¬ two63 ≤ blockLen * bpc := by simp only [blockLen, two63]; omega
  have hneg2 : ¬ two63 ≤ blockLen * bpc * 2 := by simp only [blockLen, two63]; omega
  have hnz : ¬ blockLen * bpc = 0 := by simp only [blockLen]; omega
  rw [chunkDecision]
  simp only [hCL, h2, if_neg hneg, if_neg hnz]
  by_cases htrig : blockLen * bpc * 2 < rem
  · rw [if_pos (Or.inr htrig)]
    by_cases hg : base < (base + rem / (blockLen * bpc) * bpc % two64) % two64
    · rw [if_pos hg, if_pos ⟨htrig, hg⟩]
    · rw [if_neg hg, if_neg (fun h => hg h.2)]
  · rw [if_neg (not_or.mpr ⟨hneg2, htrig⟩), if_neg (fun h => htrig h.1)]

set_option maxHeartbeats 2000000 in
theorem encrypt_par_eq_seq (x : Ctx) (m c : List Nat)
    (h16 : x.input.length = 16)
    (h12 : x.input.getD 12 0 < two32) (h13 : x.input.getD 13 0 < two32)
    (hout : x.output.length = blockLen) (hnext : x.next ≤ blockLen)
    (hbpc : 0 < x.blocksPerChunk) (hsmall : x.blocksPerChunk < 72057594037927936)
    (hm : m.length ≤ blockLen * two64) :
    encObsFull (Ctx.Encrypt { x with parallel := true } m c) =
      encObsFull (Ctx.Encrypt { x with parallel := false } m c) := by
  by_cases hm0 : m.length = 0
  · simp [Ctx.Encrypt, hm0, encObsFull]
  by_cases hclt : c.length < m.length
  · simp [Ctx.Encrypt, hm0, hclt]
  by_cases hentry : x.eof = true ∧ blockLen ≤ x.next
  · simp [Ctx.Encrypt, hm0, hclt, hentry]
  simp only [Ctx.Encrypt, if_neg hm0, if_neg hclt, if_neg hentry, Bool.false_eq_true,
    eq_self_iff_true, if_true, if_false]
  -- the leading loop consumes the rest of the buffered block
  set t := min (blockLen - x.next) m.length with ht
  have htle : t + x.next ≤ blockLen := by omega
  have htm : t ≤ m.length := by omega
  have hlead : leadLoop x.rounds m ⟨x.input, x.output, x.next, x.eof⟩ =
      (m.zipWith (· ^^^ ·) ((x.output.drop x.next).take t),
       ⟨x.input, x.output, x.next + t, x.eof⟩) := by
    rw [leadLoop_eq_leadKS, leadKS_eq_seqKS]
    rw [seqKS_consume _ _ _ (by simp only; omega) hout]
  have hktlen : ((x.output.drop x.next).take t).length = t := by
    rw [List.length_take, List.length_drop, hout]
    omega
  have hleadlen : (m.zipWith (· ^^^ ·) ((x.output.drop x.next).take t)).length = t := by
    rw [List.length_zipWith, hktlen]
    omega
  -- the sequential side, split at the same point
  have hsplitm : m.length = t + (m.length - t) := by omega
  set A := seqKS x.rounds t ⟨x.input, x.output, x.next, x.eof⟩ with hA
  have hAval : A = ((x.output.drop x.next).take t,
      ⟨x.input, x.output, x.next + t, x.eof⟩) := by
    rw [hA, seqKS_consume _ _ _ (by simp only; omega) hout]
  set B := seqKS x.rounds (m.length - t) (⟨x.input, x.output, x.next + t, x.eof⟩ : EngSt)
    with hB
  have hseq : seqLoop x.rounds m ⟨x.input, x.output, x.next, x.eof⟩ =
      (m.zipWith (· ^^^ ·) (((x.output.drop x.next).take t) ++ B.1), B.2) := by
    rw [seqLoop_eq_seqKS]
    conv_lhs => rw [hsplitm]
    rw [seqKS_append, ← hA, hAval]
  rw [hlead, hseq]
  simp only
  by_cases hcase1 : x.eof = true ∧ blockLen ≤ x.next + t
  · -- Case I: buffered bytes ran into a consumed, exhausted context
    rw [if_pos hcase1]
    have hBstuck : B = ([], ⟨x.input, x.output, x.next + t, x.eof⟩) :=
      seqKS_stuck _ _ _ hcase1.1 hcase1.2
    rw [hBstuck]
    simp only [List.append_nil, encObsFull, writeBack]
    simp [hcase1.1, hcase1.2]
  · -- no early return
    rw [if_neg hcase1]
    rw [hleadlen]
    rw [chunkDecision_small x.blocksPerChunk (m.length - t) (ctrOf x.input) hbpc hsmall]
    dsimp only
    by_cases hcase3 : blockLen * x.blocksPerChunk * 2 < m.length - t ∧
        ctrOf x.input <
          (ctrOf x.input +
            (m.length - t) / (blockLen * x.blocksPerChunk) * x.blocksPerChunk % two64) %
            two64
    · -- Case III: chunked processing
      rw [if_pos hcase3]
      have hccpos : 0 < (m.length - t) / (blockLen * x.blocksPerChunk) :=
        Nat.div_pos (by have := hcase3.1; omega)
          (Nat.mul_pos (by norm_num [blockLen]) hbpc)
      rw [if_pos hccpos]
      set cc := (m.length - t) / (blockLen * x.blocksPerChunk) with hcc
      -- basic facts about the chunked region
      have hdiv : cc * (blockLen * x.blocksPerChunk) ≤ m.length - t :=
        Nat.div_mul_le_self _ _
      have hCLcc : blockLen * (x.blocksPerChunk * cc) = blockLen * x.blocksPerChunk * cc := by
        ring
      have hKle : x.blocksPerChunk * cc ≤ two64 := by
        have h1 : blockLen * (x.blocksPerChunk * cc) ≤ m.length - t := by
          rw [hCLcc]
          calc blockLen * x.blocksPerChunk * cc = cc * (blockLen * x.blocksPerChunk) := by ring
          _ ≤ m.length - t := hdiv
        have h2 : blockLen * (x.blocksPerChunk * cc) ≤ blockLen * two64 := by
          calc blockLen * (x.blocksPerChunk * cc) ≤ m.length - t := h1
          _ ≤ m.length := by omega
          _ ≤ blockLen * two64 := hm
        exact Nat.le_of_mul_le_mul_left h2 (by norm_num [blockLen])
      have hguard := hcase3.2
      rw [Nat.mul_comm cc x.blocksPerChunk] at hguard
      have hbase_lt : ctrOf x.input < two64 := ctrOf_lt _
      have hK : 0 < x.blocksPerChunk * cc ∧
          ctrOf x.input + x.blocksPerChunk * cc < two64 := by
        set K := x.blocksPerChunk * cc with hKdef
        set base := ctrOf x.input with hbase
        simp only [two64] at hguard hbase_lt hKle ⊢
        omega
      -- the leading loop went exactly to the block boundary
      have htfull : x.next + t = blockLen := by
        have : 0 < m.length - t := by
          have := hcase3.1
          omega
        omega
      have heof : x.eof = false := by
        rcases Bool.eq_false_or_eq_true x.eof with h | h
        · exact absurd ⟨h, by omega⟩ hcase1
        · exact h
      -- closed form of the chunk phase
      have hchunklen : blockLen * x.blocksPerChunk * cc ≤ (m.drop t).length := by
        rw [List.length_drop]
        calc blockLen * x.blocksPerChunk * cc = cc * (blockLen * x.blocksPerChunk) := by ring
        _ ≤ m.length - t := hdiv
      have hchunk := chunkPhase_eq x.rounds x.blocksPerChunk cc x.input (m.drop t)
        (ctrOf x.input) h16 hbase_lt hchunklen
      have hbase2 : (ctrOf x.input + x.blocksPerChunk * cc) % two64 =
          ctrOf x.input + x.blocksPerChunk * cc := Nat.mod_eq_of_lt hK.2
      rw [hbase2] at hchunk
      -- the sequential side: block phase then tail
      have hsplitB : m.length - t =
          blockLen * (x.blocksPerChunk * cc) +
            (m.length - t - blockLen * (x.blocksPerChunk * cc)) := by
        rw [hCLcc]
        have := hchunklen
        rw [List.length_drop] at this
        omega
      have hs1 : (⟨x.input, x.output, x.next + t, x.eof⟩ : EngSt) =
          ⟨setCtr x.input (ctrOf x.input), x.output, blockLen, false⟩ := by
        rw [setCtr_ctrOf x.input h16 h12 h13, htfull, heof]
      have hblocks := seqKS_blocks x.rounds (x.blocksPerChunk * cc) x.input x.output
        (ctrOf x.input) h16 hbase_lt (by omega)
      rw [hbase2, if_neg (by omega : ¬ x.blocksPerChunk * cc = 0),
        show (decide (ctrOf x.input + x.blocksPerChunk * cc = two64)) = false from by
          simp; omega] at hblocks
      have hBsplit : B = ((ksBlocks x.rounds x.input (ctrOf x.input)
            (x.blocksPerChunk * cc)) ++
          (seqKS x.rounds (m.length - t - blockLen * (x.blocksPerChunk * cc))
            ⟨setCtr x.input (ctrOf x.input + x.blocksPerChunk * cc),
             blockAt x.rounds x.input (ctrOf x.input + x.blocksPerChunk * cc - 1),
             blockLen, false⟩).1,
          (seqKS x.rounds (m.length - t - blockLen * (x.blocksPerChunk * cc))
            ⟨setCtr x.input (ctrOf x.input + x.blocksPerChunk * cc),
             blockAt x.rounds x.input (ctrOf x.input + x.blocksPerChunk * cc - 1),
             blockLen, false⟩).2) := by
        rw [hB, hs1]
        conv_lhs => rw [hsplitB]
        rw [seqKS_append, hblocks]
      -- the parallel tail, with the stale buffer swapped out
      have hirrel := seqKS_out_irrel x.rounds
        (m.length - t - blockLen * (x.blocksPerChunk * cc)) 
        (setCtr x.input (ctrOf x.input + x.blocksPerChunk * cc))
        x.output
        (blockAt x.rounds x.input (ctrOf x.input + x.blocksPerChunk * cc - 1))
        blockLen false (le_refl _)
      rw [hchunk]
      dsimp only
      rw [seqLoop_eq_seqKS]
      have hdrop2 : (List.drop (t + blockLen * x.blocksPerChunk * cc) m).length =
          m.length - t - blockLen * (x.blocksPerChunk * cc) := by
        rw [List.length_drop, hCLcc]
        omega
      rw [hdrop2, hBsplit]
      simp only [encObsFull, writeBack]
      rw [hirrel.1, hirrel.2.1, hirrel.2.2.1, hirrel.2.2.2.1]
      -- names for the three byte segments
      have hksBlen : (ksBlocks x.rounds x.input (ctrOf x.input)
          (x.blocksPerChunk * cc)).length = blockLen * (x.blocksPerChunk * cc) :=
        ksBlocks_length ..
      have hinner : List.zipWith (· ^^^ ·)
            (m.take (t + blockLen * x.blocksPerChunk * cc))
            ((x.output.drop x.next).take t ++
              ksBlocks x.rounds x.input (ctrOf x.input) (x.blocksPerChunk * cc)) =
          (m.zipWith (· ^^^ ·) ((x.output.drop x.next).take t)) ++
            ((m.drop t).take (blockLen * x.blocksPerChunk * cc)).zipWith (· ^^^ ·)
              (ksBlocks x.rounds x.input (ctrOf x.input) (x.blocksPerChunk * cc)) := by
        rw [List.take_add,
          List.zipWith_append _ _ _ _ _ (by rw [List.length_take, hktlen]; omega),
          zipWith_take_left m _ t (le_of_eq hktlen)]
      have hsplit3 : List.zipWith (· ^^^ ·) m
            ((x.output.drop x.next).take t ++
              (ksBlocks x.rounds x.input (ctrOf x.input) (x.blocksPerChunk * cc) ++
                (seqKS x.rounds (m.length - t - blockLen * (x.blocksPerChunk * cc))
                  ⟨setCtr x.input (ctrOf x.input + x.blocksPerChunk * cc),
                   blockAt x.rounds x.input (ctrOf x.input + x.blocksPerChunk * cc - 1),
                   blockLen, false⟩).1)) =
          ((m.zipWith (· ^^^ ·) ((x.output.drop x.next).take t)) ++
            ((m.drop t).take (blockLen * x.blocksPerChunk * cc)).zipWith (· ^^^ ·)
              (ksBlocks x.rounds x.input (ctrOf x.input) (x.blocksPerChunk * cc))) ++
            (List.drop (t + blockLen * x.blocksPerChunk * cc) m).zipWith (· ^^^ ·)
              (seqKS x.rounds (m.length - t - blockLen * (x.blocksPerChunk * cc))
                ⟨setCtr x.input (ctrOf x.input + x.blocksPerChunk * cc),
                 blockAt x.rounds x.input (ctrOf x.input + x.blocksPerChunk * cc - 1),
                 blockLen, false⟩).1 := by
        rw [← List.append_assoc]
        conv_lhs => rw [show m = m.take (t + blockLen * x.blocksPerChunk * cc) ++
          m.drop (t + blockLen * x.blocksPerChunk * cc) from
            (List.take_append_drop _ m).symm]
        rw [List.zipWith_append _ _ _ _ _ (by
            rw [List.length_take, List.length_append, hktlen, hksBlen, hCLcc]
            omega),
          hinner]
        congr 2
        rw [List.take_append_drop]
      rw [hsplit3]
      -- segment lengths
      have hP2len : (((m.drop t).take (blockLen * x.blocksPerChunk * cc)).zipWith (· ^^^ ·)
          (ksBlocks x.rounds x.input (ctrOf x.input) (x.blocksPerChunk * cc))).length =
          blockLen * x.blocksPerChunk * cc := by
        rw [List.length_zipWith, List.length_take, List.length_drop, hksBlen, hCLcc]
        omega
      -- splice composition
      have hsplice1 := splice_splice c
        (m.zipWith (· ^^^ ·) ((x.output.drop x.next).take t))
        (((m.drop t).take (blockLen * x.blocksPerChunk * cc)).zipWith (· ^^^ ·)
          (ksBlocks x.rounds x.input (ctrOf x.input) (x.blocksPerChunk * cc)))
      rw [hleadlen] at hsplice1
      have hsplice2 := splice_splice c
        ((m.zipWith (· ^^^ ·) ((x.output.drop x.next).take t)) ++
          (((m.drop t).take (blockLen * x.blocksPerChunk * cc)).zipWith (· ^^^ ·)
            (ksBlocks x.rounds x.input (ctrOf x.input) (x.blocksPerChunk * cc))))
        ((List.drop (t + blockLen * x.blocksPerChunk * cc) m).zipWith (· ^^^ ·)
          (seqKS x.rounds (m.length - t - blockLen * (x.blocksPerChunk * cc))
            ⟨setCtr x.input (ctrOf x.input + x.blocksPerChunk * cc),
             blockAt x.rounds x.input (ctrOf x.input + x.blocksPerChunk * cc - 1),
             blockLen, false⟩).1)
      rw [List.length_append, hleadlen, hP2len] at hsplice2
      rw [hsplice1, hsplice2]
      -- byte counts
      rw [List.length_append, List.length_append, hleadlen, hP2len]
      -- the live output buffer, when the cursor says it is live
      rcases hirrel.2.2.2.2 with hge | hoeq
      · rw [hirrel.2.2.1] at hge
        rw [if_neg (by omega), if_neg (by omega)]
      · rw [hoeq]
    · -- Case II: fall through to the sequential loop
      rw [if_neg hcase3]
      rw [if_neg (lt_irrefl 0)]
      rw [seqLoop_eq_seqKS]
      have hdroplen : (m.drop t).length = m.length - t := by
        rw [List.length_drop]
      rw [hdroplen, ← hB]
      simp only [encObsFull, writeBack]
      have hz : (m.zipWith (· ^^^ ·) ((x.output.drop x.next).take t)) =
          ((m.take t).zipWith (· ^^^ ·) ((x.output.drop x.next).take t)) := by
        rw [zipWith_take_left _ _ _ (by rw [hktlen])]
      have hsplit2 : m.zipWith (· ^^^ ·) (((x.output.drop x.next).take t) ++ B.1) =
          (m.zipWith (· ^^^ ·) ((x.output.drop x.next).take t)) ++
            ((m.drop t).zipWith (· ^^^ ·) B.1) := by
        conv_lhs => rw [show m = m.take t ++ m.drop t from (List.take_append_drop t m).symm]
        rw [List.zipWith_append _ _ _ _ _ (by rw [List.length_take, hktlen]; omega), ← hz]
      have hsplice := splice_splice c
        (m.zipWith (· ^^^ ·) ((x.output.drop x.next).take t))
        ((m.drop t).zipWith (· ^^^ ·) B.1)
      rw [hleadlen] at hsplice
      rw [hsplit2, hsplice, List.length_append, hleadlen]

theorem incCounterSeq_wf (inp : List Nat) (eof : Bool) (h16 : inp.length = 16)
    (h13 : inp.getD 13 0 < two32) :
    (incCounterSeq inp eof).1.length = 16 ∧
    (incCounterSeq inp eof).1.getD 12 0 < two32 ∧
    (incCounterSeq inp eof).1.getD 13 0 < two32 := by
  rw [incCounterSeq]
  by_cases hwrap : (inp.getD 12 0 + 1) % two32 = 0
  · rw [if_pos hwrap]
    refine ⟨by simp [h16], ?_, ?_⟩
    · rw [getD_set_ne _ _ _ _ (by omega), getD_set_self _ _ _ (by simp [h16])]
      exact Nat.mod_lt _ two32_pos
    · rw [getD_set_self _ _ _ (by simp [h16])]
      exact Nat.mod_lt _ two32_pos
  · rw [if_neg hwrap]
    refine ⟨by simp [h16], ?_, ?_⟩
    · rw [getD_set_self _ _ _ (by simp [h16])]
      exact Nat.mod_lt _ two32_pos
    · rw [getD_set_ne _ _ _ _ (by omega)]
      exact h13

theorem seqKS_wf (rounds len : Nat) (s : EngSt)
    (h16 : s.inp.length = 16) (h12 : s.inp.getD 12 0 < two32)
    (h13 : s.inp.getD 13 0 < two32) (hout : s.out.length = blockLen)
    (hidx : s.idx ≤ blockLen) :
    (seqKS rounds len s).2.inp.length = 16 ∧
    (seqKS rounds len s).2.inp.getD 12 0 < two32 ∧
    (seqKS rounds len s).2.inp.getD 13 0 < two32 ∧
    (seqKS rounds len s).2.out.length = blockLen ∧
    (seqKS rounds len s).2.idx ≤ blockLen := by
  induction len generalizing s with
  | zero => exact ⟨h16, h12, h13, hout, hidx⟩
  | succ n ih =>
    rw [seqKS]
    by_cases h1 : blockLen ≤ s.idx
    · rw [if_pos h1]
      by_cases h2 : s.eof = true
      · rw [if_pos h2]
        exact ⟨h16, h12, h13, hout, hidx⟩
      · rw [if_neg h2]
        have hw := incCounterSeq_wf s.inp s.eof h16 h13
        exact ih ⟨(incCounterSeq s.inp s.eof).1, salsa20_wordtobyte s.inp rounds, 1,
          (incCounterSeq s.inp s.eof).2⟩ hw.1 hw.2.1 hw.2.2
          (by simpa using salsa_length s.inp rounds) (by norm_num [blockLen])
    · rw [if_neg h1]
      exact ih ⟨s.inp, s.out, s.idx + 1, s.eof⟩ h16 h12 h13 hout (by dsimp only; omega)

/-- The closed form of `Encrypt` on a non-parallel context. -/
theorem encrypt_seq_val (x : Ctx) (m c : List Nat) (hpar : x.parallel = false)
    (hm0 : m.length ≠ 0) (hclt : ¬ c.length < m.length)
    (hentry : ¬(x.eof = true ∧ blockLen ≤ x.next)) :
    x.Encrypt m c = some
      ((m.zipWith (· ^^^ ·)
          (seqKS x.rounds m.length ⟨x.input, x.output, x.next, x.eof⟩).1).length,
       decide ((seqKS x.rounds m.length ⟨x.input, x.output, x.next, x.eof⟩).2.eof = true ∧
         blockLen ≤ (seqKS x.rounds m.length ⟨x.input, x.output, x.next, x.eof⟩).2.idx),
       splice c 0 (m.zipWith (· ^^^ ·)
         (seqKS x.rounds m.length ⟨x.input, x.output, x.next, x.eof⟩).1),
       writeBack x (seqKS x.rounds m.length ⟨x.input, x.output, x.next, x.eof⟩).2) := by
  simp only [Ctx.Encrypt, if_neg hm0, if_neg hclt, if_neg hentry, hpar,
    Bool.false_eq_true, if_false]
  rw [seqLoop_eq_seqKS]

/-- Exactly `r` bytes come out of a block-aligned request of at most one
block (the exhaustion flag set while generating cannot stop the current
block from being consumed). -/
theorem seqKS_partial_len (rounds : Nat) (inp out : List Nat) (v r : Nat)
    (h16 : inp.length = 16) (hv : v < two64) (hr : r ≤ blockLen) :
    (seqKS rounds r ⟨setCtr inp v, out, blockLen, false⟩).1.length = r := by
  cases r with
  | zero => rfl
  | succ n =>
    rw [seqKS, if_pos (le_refl _), if_neg (by simp)]
    dsimp only
    rw [seqKS_consume _ _ _ (by simp only [blockLen] at *; omega)
        (by simpa using salsa_length (setCtr inp v) rounds)]
    simp only [List.length_cons, List.length_take, List.length_drop, salsa_length]
    simp only [blockLen] at *
    omega

/-- From a block-aligned, unexhausted state, a request that stays below the
counter-wrap boundary is served in full. -/
theorem seqKS_len_eq (rounds len : Nat) (inp out : List Nat) (v : Nat)
    (h16 : inp.length = 16) (hv : v < two64)
    (hfit : v + len / blockLen < two64) :
    (seqKS rounds len ⟨setCtr inp v, out, blockLen, false⟩).1.length = len := by
  have hsplit : len = blockLen * (len / blockLen) + len % blockLen :=
    (Nat.div_add_mod len blockLen).symm
  conv_lhs => rw [hsplit]
  rw [seqKS_append,
    seqKS_blocks rounds (len / blockLen) inp out v h16 hv (by omega)]
  have hmod : (v + len / blockLen) % two64 = v + len / blockLen :=
    Nat.mod_eq_of_lt hfit
  rw [hmod, show (decide (v + len / blockLen = two64)) = false from by simp; omega]
  rw [List.length_append, ksBlocks_length,
    seqKS_partial_len rounds inp _ (v + len / blockLen) (len % blockLen) h16 hfit
      (Nat.le_of_lt (by simp only [blockLen]; omega))]
  omega

set_option maxHeartbeats 1000000 in
/-- A normal `Encrypt` return preserves well-formedness of the context and
leaves the configuration fields untouched. -/
theorem encrypt_wf (x : Ctx) (m c : List Nat) (n : Nat) (e : Bool)
    (c2 : List Nat) (x2 : Ctx)
    (h16 : x.input.length = 16)
    (h12 : x.input.getD 12 0 < two32) (h13 : x.input.getD 13 0 < two32)
    (hout : x.output.length = blockLen) (hnext : x.next ≤ blockLen)
    (henc : x.Encrypt m c = some (n, e, c2, x2)) :
    x2.input.length = 16 ∧
    x2.input.getD 12 0 < two32 ∧ x2.input.getD 13 0 < two32 ∧
    x2.output.length = blockLen ∧ x2.next ≤ blockLen ∧
    x2.rounds = x.rounds ∧ x2.parallel = x.parallel ∧
    x2.blocksPerChunk = x.blocksPerChunk ∧ x2.guardCap = x.guardCap := by
  by_cases hm0 : m.length = 0
  · simp only [Ctx.Encrypt, if_pos hm0, Option.some.injEq, Prod.mk.injEq] at henc
    rw [← henc.2.2.2]
    exact ⟨h16, h12, h13, hout, hnext, rfl, rfl, rfl, rfl⟩
  by_cases hclt : c.length < m.length
  · simp [Ctx.Encrypt, hm0, hclt] at henc
  by_cases hentry : x.eof = true ∧ blockLen ≤ x.next
  · simp [Ctx.Encrypt, hm0, hclt, hentry] at henc
  simp only [Ctx.Encrypt, if_neg hm0, if_neg hclt, if_neg hentry] at henc
  set t := min (blockLen - x.next) m.length with ht
  have hlead : leadLoop x.rounds m ⟨x.input, x.output, x.next, x.eof⟩ =
      (m.zipWith (· ^^^ ·) ((x.output.drop x.next).take t),
       ⟨x.input, x.output, x.next + t, x.eof⟩) := by
    rw [leadLoop_eq_leadKS, leadKS_eq_seqKS]
    rw [seqKS_consume _ _ _ (by simp only; omega) hout]
  by_cases hpar : x.parallel = true
  · rw [if_pos hpar, hlead] at henc
    dsimp only at henc
    by_cases hcase1 : x.eof = true ∧ blockLen ≤ x.next + t
    · rw [if_pos hcase1] at henc
      simp only [Option.some.injEq, Prod.mk.injEq] at henc
      rw [← henc.2.2.2]
      exact ⟨h16, h12, h13, hout, by simp only [writeBack]; omega, rfl, rfl, rfl, rfl⟩
    · rw [if_neg hcase1] at henc
      rcases hcd : chunkDecision x.blocksPerChunk
          (m.length - (m.zipWith (· ^^^ ·) ((x.output.drop x.next).take t)).length)
          (ctrOf x.input) with _ | cc
      · rw [hcd] at henc
        exact absurd henc (by simp)
      · rw [hcd] at henc
        dsimp only at henc
        by_cases h0 : 0 < cc
        · rw [if_pos h0] at henc
          simp only [Option.some.injEq, Prod.mk.injEq] at henc
          rw [← henc.2.2.2]
          have hwf := seqKS_wf x.rounds
            (List.drop ((m.zipWith (· ^^^ ·) ((x.output.drop x.next).take t)).length +
              blockLen * x.blocksPerChunk * cc) m).length
            ⟨setCtr x.input
              (chunkPhase x.rounds x.blocksPerChunk cc (ctrOf x.input) x.input
                (List.drop
                  (m.zipWith (· ^^^ ·) ((x.output.drop x.next).take t)).length m)).2,
             x.output, blockLen, false⟩
            (by simp only [setCtr_length]; exact h16)
            (by rw [getD_setCtr_12 _ _ h16]; exact Nat.mod_lt _ two32_pos)
            (by rw [getD_setCtr_13 _ _ h16]; exact Nat.mod_lt _ two32_pos)
            hout (le_refl _)
          rw [seqLoop_eq_seqKS]
          exact ⟨hwf.1, hwf.2.1, hwf.2.2.1, hwf.2.2.2.1, hwf.2.2.2.2, rfl, rfl, rfl, rfl⟩
        · rw [if_neg h0] at henc
          simp only [Option.some.injEq, Prod.mk.injEq] at henc
          rw [← henc.2.2.2]
          have hwf := seqKS_wf x.rounds
            (List.drop (m.zipWith (· ^^^ ·) ((x.output.drop x.next).take t)).length
              m).length
            ⟨x.input, x.output, x.next + t, x.eof⟩ h16 h12 h13 hout
            (by dsimp only; omega)
          rw [seqLoop_eq_seqKS]
          exact ⟨hwf.1, hwf.2.1, hwf.2.2.1, hwf.2.2.2.1, hwf.2.2.2.2, rfl, rfl, rfl, rfl⟩
  · rw [if_neg hpar] at henc
    simp only [Option.some.injEq, Prod.mk.injEq] at henc
    rw [← henc.2.2.2]
    have hwf := seqKS_wf x.rounds m.length ⟨x.input, x.output, x.next, x.eof⟩
      h16 h12 h13 hout hnext
    rw [seqLoop_eq_seqKS]
    exact ⟨hwf.1, hwf.2.1, hwf.2.2.1, hwf.2.2.2.1, hwf.2.2.2.2, rfl, rfl, rfl, rfl⟩

theorem ctx_eta_par (x : Ctx) (b : Bool) (h : x.parallel = b) :
    { x with parallel := b } = x := by
  cases x
  simp only at h
  rw [h]

set_option maxHeartbeats 1000000 in
/-- `Encrypt` on any well-formed context returns the sequential closed form:
the message XORed with the engine keystream, the terminal flag read off the
final engine state, and the final context agreeing with that state on
everything but (possibly) the dead buffered block. -/
theorem encrypt_any_val (x : Ctx) (m c : List Nat)
    (h16 : x.input.length = 16)
    (h12 : x.input.getD 12 0 < two32) (h13 : x.input.getD 13 0 < two32)
    (hout : x.output.length = blockLen) (hnext : x.next ≤ blockLen)
    (hbpc : 0 < x.blocksPerChunk) (hsmall : x.blocksPerChunk < 72057594037927936)
    (hm : m.length ≤ blockLen * two64)
    (hm0 : m.length ≠ 0) (hclt : ¬ c.length < m.length)
    (hentry : ¬(x.eof = true ∧ blockLen ≤ x.next)) :
    ∃ x2 : Ctx, x.Encrypt m c = some
      ((m.zipWith (· ^^^ ·)
          (seqKS x.rounds m.length ⟨x.input, x.output, x.next, x.eof⟩).1).length,
       decide ((seqKS x.rounds m.length ⟨x.input, x.output, x.next, x.eof⟩).2.eof = true ∧
         blockLen ≤ (seqKS x.rounds m.length ⟨x.input, x.output, x.next, x.eof⟩).2.idx),
       splice c 0 (m.zipWith (· ^^^ ·)
         (seqKS x.rounds m.length ⟨x.input, x.output, x.next, x.eof⟩).1),
       x2) ∧
      x2.input = (seqKS x.rounds m.length ⟨x.input, x.output, x.next, x.eof⟩).2.inp ∧
      x2.next = (seqKS x.rounds m.length ⟨x.input, x.output, x.next, x.eof⟩).2.idx ∧
      x2.eof = (seqKS x.rounds m.length ⟨x.input, x.output, x.next, x.eof⟩).2.eof ∧
      x2.rounds = x.rounds ∧ x2.parallel = x.parallel ∧
      x2.blocksPerChunk = x.blocksPerChunk ∧ x2.guardCap = x.guardCap ∧
      x2.input.length = 16 ∧
      x2.input.getD 12 0 < two32 ∧ x2.input.getD 13 0 < two32 ∧
      x2.output.length = blockLen ∧ x2.next ≤ blockLen ∧
      (x2.next < blockLen →
        x2.output = (seqKS x.rounds m.length ⟨x.input, x.output, x.next, x.eof⟩).2.out) := by
  by_cases hpar : x.parallel = true
  · have hobs := encrypt_par_eq_seq x m c h16 h12 h13 hout hnext hbpc hsmall hm
    rw [ctx_eta_par x true hpar] at hobs
    have hseqv := encrypt_seq_val { x with parallel := false } m c rfl hm0 hclt hentry
    simp only at hseqv
    rw [hseqv] at hobs
    rcases henc : x.Encrypt m c with _ | r
    · rw [henc] at hobs
      simp [encObsFull] at hobs
    · rcases r with ⟨n2, e2, c2, x2⟩
      rw [henc] at hobs
      simp only [encObsFull, writeBack, Option.some.injEq, Prod.mk.injEq] at hobs
      have hwf := encrypt_wf x m c n2 e2 c2 x2 h16 h12 h13 hout hnext henc
      refine ⟨x2, ?_, hobs.2.2.2.1, hobs.2.2.2.2.1, hobs.2.2.2.2.2.1,
        hwf.2.2.2.2.2.1, hwf.2.2.2.2.2.2.1, hwf.2.2.2.2.2.2.2.1,
        hwf.2.2.2.2.2.2.2.2, hwf.1, hwf.2.1, hwf.2.2.1, hwf.2.2.2.1, hwf.2.2.2.2.1, ?_⟩
      · rw [hobs.1, hobs.2.1, hobs.2.2.1]
      · intro hlive
        have hthis := hobs.2.2.2.2.2.2
        rw [if_pos hlive, if_pos (by rw [← hobs.2.2.2.2.1]; exact hlive)] at hthis
        exact hthis
  · have hpar2 : x.parallel = false := by
      revert hpar
      cases x.parallel <;> simp
    have hseqv := encrypt_seq_val x m c hpar2 hm0 hclt hentry
    refine ⟨writeBack x (seqKS x.rounds m.length ⟨x.input, x.output, x.next, x.eof⟩).2,
      hseqv, rfl, rfl, rfl, rfl, rfl, rfl, rfl, ?_, ?_, ?_, ?_, ?_, fun _ => rfl⟩
    all_goals
      have hwf := seqKS_wf x.rounds m.length ⟨x.input, x.output, x.next, x.eof⟩
        h16 h12 h13 hout hnext
    · exact hwf.1
    · exact hwf.2.1
    · exact hwf.2.2.1
    · exact hwf.2.2.2.1
    · exact hwf.2.2.2.2

theorem doubleRoundGo_eq_ref : doubleRoundGo = doubleRoundRef := by
  funext s
  obtain ⟨a, b, c, d, e, f, g, h, i, j, k, l, m, n, o, p⟩ := s
  rfl

theorem qrAt_col0 (v0 v1 v2 v3 v4 v5 v6 v7 v8 v9 v10 v11 v12 v13 v14 v15 : Nat) :
    qrAt [v0,v1,v2,v3,v4,v5,v6,v7,v8,v9,v10,v11,v12,v13,v14,v15] 0 4 8 12 =
      match quarterRound v0 v4 v8 v12 with
      | (a, b, c, d) =>
        [a, v1, v2, v3, b, v5, v6, v7, c, v9, v10, v11, d, v13, v14, v15] := by
  simp only [qrAt, quarterRound]
  norm_num [List.set, List.getD, List.get?]

theorem qrAt_col1 (v0 v1 v2 v3 v4 v5 v6 v7 v8 v9 v10 v11 v12 v13 v14 v15 : Nat) :
    qrAt [v0,v1,v2,v3,v4,v5,v6,v7,v8,v9,v10,v11,v12,v13,v14,v15] 1 5 9 13 =
      match quarterRound v1 v5 v9 v13 with
      | (a, b, c, d) =>
        [v0, a, v2, v3, v4, b, v6, v7, v8, c, v10, v11, v12, d, v14, v15] := by
  simp only [qrAt, quarterRound]
  norm_num [List.set, List.getD, List.get?]

theorem qrAt_col2 (v0 v1 v2 v3 v4 v5 v6 v7 v8 v9 v10 v11 v12 v13 v14 v15 : Nat) :
    qrAt [v0,v1,v2,v3,v4,v5,v6,v7,v8,v9,v10,v11,v12,v13,v14,v15] 2 6 10 14 =
      match quarterRound v2 v6 v10 v14 with
      | (a, b, c, d) =>
        [v0, v1, a, v3, v4, v5, b, v7, v8, v9, c, v11, v12, v13, d, v15] := by
  simp only [qrAt, quarterRound]
  norm_num [List.set, List.getD, List.get?]

theorem qrAt_col3 (v0 v1 v2 v3 v4 v5 v6 v7 v8 v9 v10 v11 v12 v13 v14 v15 : Nat) :
    qrAt [v0,v1,v2,v3,v4,v5,v6,v7,v8,v9,v10,v11,v12,v13,v14,v15] 3 7 11 15 =
      match quarterRound v3 v7 v11 v15 with
      | (a, b, c, d) =>
        [v0, v1, v2, a, v4, v5, v6, b, v8, v9, v10, c, v12, v13, v14, d] := by
  simp only [qrAt, quarterRound]
  norm_num [List.set, List.getD, List.get?]

theorem qrAt_diag0 (v0 v1 v2 v3 v4 v5 v6 v7 v8 v9 v10 v11 v12 v13 v14 v15 : Nat) :
    qrAt [v0,v1,v2,v3,v4,v5,v6,v7,v8,v9,v10,v11,v12,v13,v14,v15] 0 5 10 15 =
      match quarterRound v0 v5 v10 v15 with
      | (a, b, c, d) =>
        [a, v1, v2, v3, v4, b, v6, v7, v8, v9, c, v11, v12, v13, v14, d] := by
  simp only [qrAt, quarterRound]
  norm_num [List.set, List.getD, List.get?]

theorem qrAt_diag1 (v0 v1 v2 v3 v4 v5 v6 v7 v8 v9 v10 v11 v12 v13 v14 v15 : Nat) :
    qrAt [v0,v1,v2,v3,v4,v5,v6,v7,v8,v9,v10,v11,v12,v13,v14,v15] 1 6 11 12 =
      match quarterRound v1 v6 v11 v12 with
      | (a, b, c, d) =>
        [v0, a, v2, v3, v4, v5, b, v7, v8, v9, v10, c, d, v13, v14, v15] := by
  simp only [qrAt, quarterRound]
  norm_num [List.set, List.getD, List.get?]

theorem qrAt_diag2 (v0 v1 v2 v3 v4 v5 v6 v7 v8 v9 v10 v11 v12 v13 v14 v15 : Nat) :
    qrAt [v0,v1,v2,v3,v4,v5,v6,v7,v8,v9,v10,v11,v12,v13,v14,v15] 2 7 8 13 =
      match quarterRound v2 v7 v8 v13 with
      | (a, b, c, d) =>
        [v0, v1, a, v3, v4, v5, v6, b, c, v9, v10, v11, v12, d, v14, v15] := by
  simp only [qrAt, quarterRound]
  norm_num [List.set, List.getD, List.get?]

theorem qrAt_diag3 (v0 v1 v2 v3 v4 v5 v6 v7 v8 v9 v10 v11 v12 v13 v14 v15 : Nat) :
    qrAt [v0,v1,v2,v3,v4,v5,v6,v7,v8,v9,v10,v11,v12,v13,v14,v15] 3 4 9 14 =
      match quarterRound v3 v4 v9 v14 with
      | (a, b, c, d) =>
        [v0, v1, v2, a, b, v5, v6, v7, v8, c, v10, v11, v12, v13, d, v15] := by
  simp only [qrAt, quarterRound]
  norm_num [List.set, List.getD, List.get?]

theorem doubleRoundArr_toList (s : W16) :
    doubleRoundArr (tupleToList s) = tupleToList (doubleRoundRef s) := by
  obtain ⟨a, b, c, d, e, f, g, h, i, j, k, l, m, n, o, p⟩ := s
  dsimp only [tupleToList, doubleRoundArr, doubleRoundRef]
  rw [qrAt_col0]
  rcases quarterRound a e i m with ⟨a1, e1, i1, m1⟩
  rw [qrAt_col1]
  rcases quarterRound b f j n with ⟨b1, f1, j1, n1⟩
  rw [qrAt_col2]
  rcases quarterRound c g k o with ⟨c1, g1, k1, o1⟩
  rw [qrAt_col3]
  rcases quarterRound d h l p with ⟨d1, h1, l1, p1⟩
  rw [qrAt_diag0]
  rcases quarterRound a1 f1 k1 p1 with ⟨a2, f2, k2, p2⟩
  rw [qrAt_diag1]
  rcases quarterRound b1 g1 l1 m1 with ⟨b2, g2, l2, m2⟩
  rw [qrAt_diag2]
  rcases quarterRound c1 h1 i1 n1 with ⟨c2, h2, i2, n2⟩
  rw [qrAt_diag3]

theorem doubleRoundArr_iter (n : Nat) (s : W16) :
    doubleRoundArr^[n] (tupleToList s) = tupleToList (doubleRoundRef^[n] s) := by
  induction n generalizing s with
  | zero => rfl
  | succ k ih =>
    rw [Function.iterate_succ_apply, Function.iterate_succ_apply,
      doubleRoundArr_toList, ih]

theorem salsa_arr_eq_go (input : List Nat) (rounds : Nat) :
    salsa20_wordtobyte_arr input rounds = salsa20_wordtobyte input rounds := by
  unfold salsa20_wordtobyte_arr salsa20_wordtobyte
  dsimp only
  have h0 : (List.range 16).map (fun i => input.getD i 0) =
      tupleToList (readWords input) := rfl
  rw [h0, doubleRoundArr_iter, doubleRoundGo_eq_ref]
  rcases doubleRoundRef^[roundIter rounds] (readWords input) with
    ⟨a, b, c, d, e, f, g, h, i, j, k, l, m, n, o, p⟩
  dsimp only [tupleToList]
  norm_num [List.range_succ, List.flatten, List.append_assoc, List.getD, List.get?]

theorem list16_explicit (l : List Nat) (h : l.length = 16) :
    l = [l.getD 0 0, l.getD 1 0, l.getD 2 0, l.getD 3 0, l.getD 4 0, l.getD 5 0,
         l.getD 6 0, l.getD 7 0, l.getD 8 0, l.getD 9 0, l.getD 10 0, l.getD 11 0,
         l.getD 12 0, l.getD 13 0, l.getD 14 0, l.getD 15 0] := by
  rcases l with _ | ⟨b0, l⟩
  · simp only [List.length_nil, List.length_cons] at h
    omega
  rcases l with _ | ⟨b1, l⟩
  · simp only [List.length_nil, List.length_cons] at h
    omega
  rcases l with _ | ⟨b2, l⟩
  · simp only [List.length_nil, List.length_cons] at h
    omega
  rcases l with _ | ⟨b3, l⟩
  · simp only [List.length_nil, List.length_cons] at h
    omega
  rcases l with _ | ⟨b4, l⟩
  · simp only [List.length_nil, List.length_cons] at h
    omega
  rcases l with _ | ⟨b5, l⟩
  · simp only [List.length_nil, List.length_cons] at h
    omega
  rcases l with _ | ⟨b6, l⟩
  · simp only [List.length_nil, List.length_cons] at h
    omega
  rcases l with _ | ⟨b7, l⟩
  · simp only [List.length_nil, List.length_cons] at h
    omega
  rcases l with _ | ⟨b8, l⟩
  · simp only [List.length_nil, List.length_cons] at h
    omega
  rcases l with _ | ⟨b9, l⟩
  · simp only [List.length_nil, List.length_cons] at h
    omega
  rcases l with _ | ⟨b10, l⟩
  · simp only [List.length_nil, List.length_cons] at h
    omega
  rcases l with _ | ⟨b11, l⟩
  · simp only [List.length_nil, List.length_cons] at h
    omega
  rcases l with _ | ⟨b12, l⟩
  · simp only [List.length_nil, List.length_cons] at h
    omega
  rcases l with _ | ⟨b13, l⟩
  · simp only [List.length_nil, List.length_cons] at h
    omega
  rcases l with _ | ⟨b14, l⟩
  · simp only [List.length_nil, List.length_cons] at h
    omega
  rcases l with _ | ⟨b15, l⟩
  · simp only [List.length_nil, List.length_cons] at h
    omega
  rcases l with _ | ⟨b16, l⟩
  · rfl
  · simp only [List.length_cons] at h
    omega

/-! ## The claims -/

/-- C10: `Encrypt` called with a zero-length source returns count 0 and no
error and leaves the context (and the destination) completely unchanged, in
every context state including an already-exhausted one: it neither panics
nor returns the terminal exhaustion signal, and its result is independent of
the destination's length. -/
theorem c10_encrypt_empty_source (x : Ctx) (c : List Nat) :
    x.Encrypt [] c = some (0, false, c, x) := rfl

set_option maxRecDepth 10000 in
/-- C5: with a 32-zero-byte key, an 8-zero-byte nonce and 20 rounds, a fresh
context encrypts 128 zero bytes to exactly the published reference keystream
test vector (two fixed 64-byte blocks beginning 0x76,0xb8,0xe0,0xad,… and
0x9f,0x07,0xe7,0xbe,…). -/
theorem c5_reference_test_vector :
    ((New (List.replicate 32 0) (List.replicate 8 0)).bind
      (fun x => x.Encrypt (List.replicate 128 0) (List.replicate 128 0))).map
        (fun r => (r.1, r.2.1, r.2.2.1)) =
    some (128, false,
    [118,184,224,173,160,241,61,144,64,93,106,229,83,134,189,40,
     189,210,25,184,160,141,237,26,168,54,239,204,139,119,13,199,
     218,65,89,124,81,87,72,141,119,36,224,63,184,216,74,55,
     106,67,184,244,21,24,161,28,195,135,182,105,178,238,101,134,
     159,7,231,190,85,81,56,122,152,186,151,124,115,45,8,13,
     203,15,41,160,72,227,101,105,18,198,83,62,50,238,122,237,
     41,183,33,118,156,230,78,67,213,113,51,176,116,216,57,213,
     49,237,31,40,81,10,251,69,172,225,10,31,75,121,77,111]) := by
  decide

/-- C8: `KeySetup` accepts exactly keys of 16 or 32 bytes and panics for
every other length; a 32-byte key loads its 32 bytes little-endian into the
eight key words 4–11 and selects the `sigma` ("expand 32-byte k") constant
set, a 16-byte key is loaded twice and selects the `tau`
("expand 16-byte k") constant set, and the four selected constant words are
placed in state words 0–3; words 12–15 are untouched. -/
theorem c8_keysetup (x : Ctx) (k : List Nat) (h16 : x.input.length = 16) :
    ((x.KeySetup k).isSome ↔ (k.length = 16 ∨ k.length = 32)) ∧
    (k.length = 32 → x.KeySetup k = some { x with input :=
      [leU32 sigma 0, leU32 sigma 4, leU32 sigma 8, leU32 sigma 12,
       leU32 k 0, leU32 k 4, leU32 k 8, leU32 k 12,
       leU32 (k.drop 16) 0, leU32 (k.drop 16) 4, leU32 (k.drop 16) 8,
       leU32 (k.drop 16) 12,
       x.input.getD 12 0, x.input.getD 13 0, x.input.getD 14 0,
       x.input.getD 15 0] }) ∧
    (k.length = 16 → x.KeySetup k = some { x with input :=
      [leU32 tau 0, leU32 tau 4, leU32 tau 8, leU32 tau 12,
       leU32 k 0, leU32 k 4, leU32 k 8, leU32 k 12,
       leU32 k 0, leU32 k 4, leU32 k 8, leU32 k 12,
       x.input.getD 12 0, x.input.getD 13 0, x.input.getD 14 0,
       x.input.getD 15 0] }) := by
  refine ⟨?_, ?_, ?_⟩
  · by_cases hv : k.length = 16 ∨ k.length = 32
    · rw [Ctx.KeySetup, if_neg (by omega)]
      simp [hv]
    · rw [Ctx.KeySetup, if_pos (by omega)]
      simp [hv]
  · intro h32
    rw [Ctx.KeySetup, if_neg (by omega)]
    rw [h32, if_pos rfl, if_pos rfl]
    rw [Option.some.injEq, Ctx.mk.injEq]
    refine ⟨?_, rfl, rfl, rfl, rfl, rfl, rfl, rfl⟩
    conv_lhs => rw [list16_explicit x.input h16]
    rfl
  · intro hk16
    have hne32 : k.length = 32 → False := by omega
    rw [Ctx.KeySetup, if_neg (by omega)]
    rw [hk16, if_neg (by omega), if_neg (by omega)]
    rw [Option.some.injEq, Ctx.mk.injEq]
    refine ⟨?_, rfl, rfl, rfl, rfl, rfl, rfl, rfl⟩
    conv_lhs => rw [list16_explicit x.input h16]
    rfl

/-- Witness for C8 at a concrete context and keys of lengths 32, 16 and 20. -/
theorem c8_keysetup_witness :
    ((baseCtx.KeySetup (List.replicate 20 0)).isSome ↔
      ((List.replicate 20 0 : List Nat).length = 16 ∨
        (List.replicate 20 0 : List Nat).length = 32)) ∧
    ((List.replicate 32 (0:Nat)).length = 32 →
      baseCtx.KeySetup (List.replicate 32 0) = some { baseCtx with input :=
        [leU32 sigma 0, leU32 sigma 4, leU32 sigma 8, leU32 sigma 12,
         leU32 (List.replicate 32 0) 0, leU32 (List.replicate 32 0) 4,
         leU32 (List.replicate 32 0) 8, leU32 (List.replicate 32 0) 12,
         leU32 ((List.replicate 32 0).drop 16) 0,
         leU32 ((List.replicate 32 0).drop 16) 4,
         leU32 ((List.replicate 32 0).drop 16) 8,
         leU32 ((List.replicate 32 0).drop 16) 12,
         baseCtx.input.getD 12 0, baseCtx.input.getD 13 0,
         baseCtx.input.getD 14 0, baseCtx.input.getD 15 0] }) :=
  ⟨(c8_keysetup baseCtx (List.replicate 20 0) (by decide)).1,
   (c8_keysetup baseCtx (List.replicate 32 0) (by decide)).2.1⟩

theorem zipWith_zeros (n : Nat) (l : List Nat) :
    (List.replicate n 0).zipWith (· ^^^ ·) l = l.take n := by
  induction n generalizing l with
  | zero => simp
  | succ k ih =>
    cases l with
    | nil => simp
    | cons a t =>
      simp only [List.replicate, List.zipWith, List.take_succ_cons, Nat.zero_xor]
      rw [ih]

/-- C7: `Seek n` stores the 64-bit block number `n` little-endian into the
two counter words (so `GetCounter` returns `n`), clears the exhaustion flag
and marks the buffered block fully consumed; and `Seek n` followed by a
64-byte `Keystream` yields exactly the bytes at absolute block offset `n` of
the uninterrupted stream started at `Seek 0`. -/
theorem c7_seek_counter_and_stream (x : Ctx) (n : Nat) (h16 : x.input.length = 16)
    (hout : x.output.length = blockLen)
    (hbpc : 0 < x.blocksPerChunk) (hsmall : x.blocksPerChunk < 72057594037927936)
    (hn : n < two64) :
    (x.Seek n).GetCounter = n ∧ (x.Seek n).eof = false ∧
    (x.Seek n).next = blockLen ∧
    ((x.Seek n).Keystream (List.replicate blockLen 0)).map Prod.fst =
      ((x.Seek 0).Keystream (List.replicate (blockLen * (n + 1)) 0)).map
        (fun r => r.1.drop (blockLen * n)) := by
  refine ⟨ctrOf_setCtr x.input n h16 hn, rfl, rfl, ?_⟩
  -- left: one block at offset n
  obtain ⟨x2, henc, -⟩ := encrypt_any_val (x.Seek n) (List.replicate blockLen 0)
    (List.replicate blockLen 0)
    (by simp only [Ctx.Seek, setCtr_length]; exact h16)
    (by simp only [Ctx.Seek]; rw [getD_setCtr_12 _ _ h16]; exact Nat.mod_lt _ two32_pos)
    (by simp only [Ctx.Seek]; rw [getD_setCtr_13 _ _ h16]; exact Nat.mod_lt _ two32_pos)
    (by simp only [Ctx.Seek]; exact hout)
    (by simp only [Ctx.Seek]; exact le_refl _)
    hbpc hsmall
    (by simp only [List.length_replicate, blockLen, two64]; omega)
    (by simp only [List.length_replicate, blockLen]; omega)
    (by simp only [List.length_replicate]; omega)
    (by simp only [Ctx.Seek]; simp)
  rw [Ctx.Keystream, if_neg (by simp only [Ctx.Seek]; simp)]
  simp only [List.length_replicate]
  rw [henc]
  -- right: n+1 blocks from offset 0
  obtain ⟨y2, henc0, -⟩ := encrypt_any_val (x.Seek 0)
    (List.replicate (blockLen * (n + 1)) 0) (List.replicate (blockLen * (n + 1)) 0)
    (by simp only [Ctx.Seek, setCtr_length]; exact h16)
    (by simp only [Ctx.Seek]; rw [getD_setCtr_12 _ _ h16]; exact Nat.mod_lt _ two32_pos)
    (by simp only [Ctx.Seek]; rw [getD_setCtr_13 _ _ h16]; exact Nat.mod_lt _ two32_pos)
    (by simp only [Ctx.Seek]; exact hout)
    (by simp only [Ctx.Seek]; exact le_refl _)
    hbpc hsmall
    (by simp only [List.length_replicate]
        have hb : 0 < blockLen := by norm_num [blockLen]
        exact Nat.mul_le_mul_left _ (by omega))
    (by simp only [List.length_replicate, blockLen]; omega)
    (by simp only [List.length_replicate]; omega)
    (by simp only [Ctx.Seek]; simp)
  rw [Ctx.Keystream, if_neg (by simp only [Ctx.Seek]; simp)]
  simp only [List.length_replicate]
  rw [henc0]
  -- both sides to closed keystream form
  simp only [Option.map, Option.some.injEq]
  simp only [Ctx.Seek, List.length_replicate]
  have hb1 := seqKS_block1 x.rounds x.input x.output n h16 hn
  have hbs := seqKS_blocks x.rounds (n + 1) x.input x.output 0 h16
    (by norm_num [two64]) (by omega)
  rw [zipWith_zeros, zipWith_zeros]
  rw [hb1, hbs]
  simp only
  rw [List.take_of_length_le (by rw [blockAt_length]; norm_num [blockLen]),
    List.take_of_length_le (by rw [ksBlocks_length])]
  have hs1 : splice (List.replicate blockLen 0) 0 (blockAt x.rounds x.input n) =
      blockAt x.rounds x.input n := by
    rw [splice_zero,
      List.drop_eq_nil_of_le (by rw [blockAt_length, List.length_replicate]
                                 norm_num [blockLen]),
      List.append_nil]
  have hs2 : splice (List.replicate (blockLen * (n + 1)) 0) 0
      (ksBlocks x.rounds x.input 0 (n + 1)) =
      ksBlocks x.rounds x.input 0 (n + 1) := by
    rw [splice_zero,
      List.drop_eq_nil_of_le (by rw [ksBlocks_length, List.length_replicate]),
      List.append_nil]
  rw [hs1, hs2]
  -- the (n+1)-block stream decomposes as n blocks then block n
  have hfin : (ksBlocks x.rounds x.input 0 (n + 1)).drop (blockLen * n) =
      blockAt x.rounds x.input n := by
    rw [ksBlocks_split x.rounds x.input 0 n 1 (by norm_num [two64]),
      Nat.zero_add, Nat.mod_eq_of_lt hn,
      ← ksBlocks_length x.rounds x.input 0 n, List.drop_left,
      ksBlocks, ksBlocks, List.append_nil]
  rw [hfin]

/-- Witness for C7 at the base context and block number 1. -/
theorem c7_seek_witness :
    (baseCtx.Seek 1).GetCounter = 1 ∧ (baseCtx.Seek 1).eof = false ∧
    (baseCtx.Seek 1).next = blockLen ∧
    ((baseCtx.Seek 1).Keystream (List.replicate blockLen 0)).map Prod.fst =
      ((baseCtx.Seek 0).Keystream (List.replicate (blockLen * (1 + 1)) 0)).map
        (fun r => r.1.drop (blockLen * 1)) :=
  c7_seek_counter_and_stream baseCtx 1 (by decide) (by decide) (by decide) (by decide)
    (by decide)

/-- C1 (corrected): for every well-formed context (key, nonce, rounds,
counter, worker-limit tuning, and a chunk-size tuning below `2^56` blocks,
so that Go's `int` computation of the chunk length cannot overflow) and
every input of Go-representable length, `Encrypt` with parallel processing
enabled returns the same count, the same terminal flag and exactly the same
output bytes, and leaves the same final counter words, cursor and
exhaustion state, as `Encrypt` with parallel processing disabled.  The
claim's unrestricted quantification over chunk-size tunings is false:
see `c1_parallel_counterexample`. -/
theorem c1_parallel_equals_sequential (x : Ctx) (m c : List Nat)
    (h16 : x.input.length = 16)
    (h12 : x.input.getD 12 0 < two32) (h13 : x.input.getD 13 0 < two32)
    (hout : x.output.length = blockLen) (hnext : x.next ≤ blockLen)
    (hbpc : 1 ≤ x.blocksPerChunk) (hsmall : x.blocksPerChunk < 72057594037927936)
    (hm : m.length < 2 ^ 63) :
    encObs (Ctx.Encrypt { x with parallel := true } m c) =
      encObs (Ctx.Encrypt { x with parallel := false } m c) :=
  encObs_of_full _ _ (encrypt_par_eq_seq x m c h16 h12 h13 hout hnext hbpc hsmall (by
    have h63 : (2:Nat) ^ 63 = 9223372036854775808 := by norm_num
    rw [h63] at hm
    simp only [blockLen, two64]
    omega))

/-- Counterexample to the unrestricted C1: with the reachable tuning
`TuneParallel(2^58, …)`, Go's `int` chunk length `64 * 2^58` wraps to
exactly 0, so the parallel context crashes with a division by zero at
`(size-n)/chunkLen` on any unbuffered input, while the otherwise identical
sequential context encrypts it normally. -/
theorem c1_parallel_counterexample :
    Ctx.Encrypt
      { input := List.replicate 16 0, output := List.replicate 64 0,
        next := 64, eof := false, rounds := 8, parallel := true,
        blocksPerChunk := 288230376151711744, guardCap := 1 } [0] [0] = none ∧
    (Ctx.Encrypt
      { input := List.replicate 16 0, output := List.replicate 64 0,
        next := 64, eof := false, rounds := 8, parallel := false,
        blocksPerChunk := 288230376151711744, guardCap := 1 } [0] [0]).isSome
      = true := by
  constructor
  · decide
  · decide

/-- Witness for the corrected C1: a context tuned to one block per chunk, a
partially consumed buffer, and a 300-byte message, so that the parallel
path really chunks. -/
theorem c1_parallel_witness :
    encObs (Ctx.Encrypt
      { input := List.replicate 16 0, output := List.replicate 64 0,
        next := 30, eof := false, rounds := 8, parallel := true,
        blocksPerChunk := 1, guardCap := 7 } (List.replicate 300 1)
      (List.replicate 300 0)) =
    encObs (Ctx.Encrypt
      { input := List.replicate 16 0, output := List.replicate 64 0,
        next := 30, eof := false, rounds := 8, parallel := false,
        blocksPerChunk := 1, guardCap := 7 } (List.replicate 300 1)
      (List.replicate 300 0)) :=
  c1_parallel_equals_sequential
    { input := List.replicate 16 0, output := List.replicate 64 0,
      next := 30, eof := false, rounds := 8, parallel := true,
      blocksPerChunk := 1, guardCap := 7 } (List.replicate 300 1)
    (List.replicate 300 0) (by decide) (by decide) (by decide) (by decide)
    (by decide) (by decide) (by decide) (by norm_num)

/-- C4: for every 16-word state and every round count in {8, 12, 20}, the
block transform of the current individual-variable `salsa20_wordtobyte`
equals the reference algorithm (16 working words, `r/2` double-rounds of
four column then four diagonal quarter-rounds, feed-forward, little-endian
serialization), and the historical array-based `salsa20_wordtobyte`
computes the same function. -/
theorem c4_block_transform_reference (input : List Nat) (rounds : Nat)
    (h16 : input.length = 16) (hr : rounds = 8 ∨ rounds = 12 ∨ rounds = 20) :
    salsa20_wordtobyte input rounds = chachaBlockRef input rounds ∧
    salsa20_wordtobyte_arr input rounds = salsa20_wordtobyte input rounds := by
  constructor
  · have hri : roundIter rounds = rounds / 2 := by
      rcases hr with h | h | h <;> subst h <;> rfl
    unfold salsa20_wordtobyte chachaBlockRef
    rw [hri, doubleRoundGo_eq_ref]
  · exact salsa_arr_eq_go input rounds

/-- Witness for C4 at the all-zero 16-word state and 8 rounds. -/
theorem c4_block_witness :
    salsa20_wordtobyte (List.replicate 16 0) 8 =
      chachaBlockRef (List.replicate 16 0) 8 ∧
    salsa20_wordtobyte_arr (List.replicate 16 0) 8 =
      salsa20_wordtobyte (List.replicate 16 0) 8 :=
  c4_block_transform_reference (List.replicate 16 0) 8 (by decide)
    (Or.inl rfl)

theorem incCounterSeq_frame (inp : List Nat) (eof : Bool) (i : Nat)
    (h12 : i ≠ 12) (h13 : i ≠ 13) :
    (incCounterSeq inp eof).1.getD i 0 = inp.getD i 0 := by
  rw [incCounterSeq]
  by_cases h : (inp.getD 12 0 + 1) % two32 = 0
  · rw [if_pos h]
    dsimp only
    rw [getD_set_ne _ _ _ _ (by omega), getD_set_ne _ _ _ _ (by omega)]
  · rw [if_neg h]
    dsimp only
    rw [getD_set_ne _ _ _ _ (by omega)]

theorem seqLoop_frame (rounds : Nat) (ms : List Nat) (s : EngSt) (i : Nat)
    (h12 : i ≠ 12) (h13 : i ≠ 13) :
    (seqLoop rounds ms s).2.inp.getD i 0 = s.inp.getD i 0 := by
  induction ms generalizing s with
  | nil => rfl
  | cons b rest ih =>
    rw [seqLoop]
    by_cases h1 : blockLen ≤ s.idx
    · rw [if_pos h1]
      by_cases h2 : s.eof = true
      · rw [if_pos h2]
      · rw [if_neg h2]
        dsimp only
        rw [ih]
        exact incCounterSeq_frame s.inp s.eof i h12 h13
    · rw [if_neg h1]
      dsimp only
      exact ih _

theorem leadLoop_frame (rounds : Nat) (ms : List Nat) (s : EngSt) (i : Nat)
    (h12 : i ≠ 12) (h13 : i ≠ 13) :
    (leadLoop rounds ms s).2.inp.getD i 0 = s.inp.getD i 0 := by
  induction ms generalizing s with
  | nil => rfl
  | cons b rest ih =>
    rw [leadLoop]
    by_cases h0 : s.idx < blockLen
    · rw [if_pos h0]
      by_cases h1 : blockLen ≤ s.idx
      · rw [if_pos h1]
        by_cases h2 : s.eof = true
        · rw [if_pos h2]
        · rw [if_neg h2]
          dsimp only
          rw [ih]
          exact incCounterSeq_frame s.inp s.eof i h12 h13
      · rw [if_neg h1]
        dsimp only
        exact ih _
    · rw [if_neg h0]

/-- A normal `Encrypt` return never touches a state word other than the two
counter words, nor the round count or the parallel tuning. -/
theorem encrypt_frame (x : Ctx) (m c : List Nat) (n : Nat) (e : Bool)
    (c2 : List Nat) (x2 : Ctx) (i : Nat) (h12 : i ≠ 12) (h13 : i ≠ 13)
    (henc : x.Encrypt m c = some (n, e, c2, x2)) :
    x2.input.getD i 0 = x.input.getD i 0 ∧
    x2.rounds = x.rounds ∧ x2.parallel = x.parallel ∧
    x2.blocksPerChunk = x.blocksPerChunk ∧ x2.guardCap = x.guardCap := by
  by_cases hm0 : m.length = 0
  · simp only [Ctx.Encrypt, if_pos hm0, Option.some.injEq, Prod.mk.injEq] at henc
    rw [← henc.2.2.2]
    exact ⟨rfl, rfl, rfl, rfl, rfl⟩
  by_cases hclt : c.length < m.length
  · simp [Ctx.Encrypt, hm0, hclt] at henc
  by_cases hentry : x.eof = true ∧ blockLen ≤ x.next
  · simp [Ctx.Encrypt, hm0, hclt, hentry] at henc
  simp only [Ctx.Encrypt, if_neg hm0, if_neg hclt, if_neg hentry] at henc
  by_cases hpar : x.parallel = true
  · rw [if_pos hpar] at henc
    by_cases hcase1 :
        (leadLoop x.rounds m ⟨x.input, x.output, x.next, x.eof⟩).2.eof = true ∧
        blockLen ≤ (leadLoop x.rounds m ⟨x.input, x.output, x.next, x.eof⟩).2.idx
    · rw [if_pos hcase1] at henc
      simp only [Option.some.injEq, Prod.mk.injEq] at henc
      rw [← henc.2.2.2]
      refine ⟨?_, rfl, rfl, rfl, rfl⟩
      simp only [writeBack]
      exact leadLoop_frame x.rounds m ⟨x.input, x.output, x.next, x.eof⟩ i h12 h13
    · rw [if_neg hcase1] at henc
      rcases hcd : chunkDecision x.blocksPerChunk
          (m.length - (leadLoop x.rounds m ⟨x.input, x.output, x.next, x.eof⟩).1.length)
          (ctrOf (leadLoop x.rounds m ⟨x.input, x.output, x.next, x.eof⟩).2.inp)
        with _ | cc
      · rw [hcd] at henc
        exact absurd henc (by simp)
      · rw [hcd] at henc
        dsimp only at henc
        by_cases h0 : 0 < cc
        · rw [if_pos h0] at henc
          simp only [Option.some.injEq, Prod.mk.injEq] at henc
          rw [← henc.2.2.2]
          refine ⟨?_, rfl, rfl, rfl, rfl⟩
          simp only [writeBack]
          rw [seqLoop_frame _ _ _ i h12 h13]
          dsimp only
          rw [getD_setCtr_ne _ _ _ h12 h13]
          exact leadLoop_frame x.rounds m ⟨x.input, x.output, x.next, x.eof⟩ i h12 h13
        · rw [if_neg h0] at henc
          simp only [Option.some.injEq, Prod.mk.injEq] at henc
          rw [← henc.2.2.2]
          refine ⟨?_, rfl, rfl, rfl, rfl⟩
          simp only [writeBack]
          rw [seqLoop_frame _ _ _ i h12 h13]
          exact leadLoop_frame x.rounds m ⟨x.input, x.output, x.next, x.eof⟩ i h12 h13
  · rw [if_neg hpar] at henc
    simp only [Option.some.injEq, Prod.mk.injEq] at henc
    rw [← henc.2.2.2]
    refine ⟨?_, rfl, rfl, rfl, rfl⟩
    simp only [writeBack]
    exact seqLoop_frame x.rounds m ⟨x.input, x.output, x.next, x.eof⟩ i h12 h13

/-- C9: every normally returning call of `Encrypt`, `Decrypt`, `Keystream`,
`XORKeyStream` or `Read` leaves every state word other than the two counter
words 12–13 — that is, the constant words 0–3, the key words 4–11 and the
nonce words 14–15 — as well as the round count and the parallel-tuning
fields unchanged; only the counter words, the buffered output block, the
cursor `next` and the exhaustion flag may change. -/
theorem c9_frame_effect (x : Ctx) (i : Nat) (h12 : i ≠ 12) (h13 : i ≠ 13) :
    (∀ m c n e c2 x2, x.Encrypt m c = some (n, e, c2, x2) →
      x2.input.getD i 0 = x.input.getD i 0 ∧ x2.rounds = x.rounds ∧
      x2.parallel = x.parallel ∧ x2.blocksPerChunk = x.blocksPerChunk ∧
      x2.guardCap = x.guardCap) ∧
    (∀ c m n e m2 x2, x.Decrypt c m = some (n, e, m2, x2) →
      x2.input.getD i 0 = x.input.getD i 0 ∧ x2.rounds = x.rounds ∧
      x2.parallel = x.parallel ∧ x2.blocksPerChunk = x.blocksPerChunk ∧
      x2.guardCap = x.guardCap) ∧
    (∀ stream s2 x2, x.Keystream stream = some (s2, x2) →
      x2.input.getD i 0 = x.input.getD i 0 ∧ x2.rounds = x.rounds ∧
      x2.parallel = x.parallel ∧ x2.blocksPerChunk = x.blocksPerChunk ∧
      x2.guardCap = x.guardCap) ∧
    (∀ dst src d2 x2, x.XORKeyStream dst src = some (d2, x2) →
      x2.input.getD i 0 = x.input.getD i 0 ∧ x2.rounds = x.rounds ∧
      x2.parallel = x.parallel ∧ x2.blocksPerChunk = x.blocksPerChunk ∧
      x2.guardCap = x.guardCap) ∧
    (∀ b n e b2 x2, x.Read b = some (n, e, b2, x2) →
      x2.input.getD i 0 = x.input.getD i 0 ∧ x2.rounds = x.rounds ∧
      x2.parallel = x.parallel ∧ x2.blocksPerChunk = x.blocksPerChunk ∧
      x2.guardCap = x.guardCap) := by
  refine ⟨fun m c n e c2 x2 h => encrypt_frame x m c n e c2 x2 i h12 h13 h,
    ?_, ?_, ?_, ?_⟩
  · intro c m n e m2 x2 h
    rw [Ctx.Decrypt] at h
    by_cases h1 : x.eof = true ∧ blockLen ≤ x.next
    · rw [if_pos h1] at h
      cases h
    rw [if_neg h1] at h
    by_cases h2 : m.length < c.length
    · rw [if_pos h2] at h
      cases h
    rw [if_neg h2] at h
    exact encrypt_frame x c m n e m2 x2 i h12 h13 h
  · intro stream s2 x2 h
    rw [Ctx.Keystream] at h
    by_cases h1 : x.eof = true ∧ blockLen ≤ stream.length
    · rw [if_pos h1] at h
      cases h
    rw [if_neg h1] at h
    rcases he : x.Encrypt (List.replicate stream.length 0) stream with _ | r
    · rw [he] at h
      cases h
    · rcases r with ⟨n, e, c2, y2⟩
      rw [he] at h
      simp only [Option.map, Option.some.injEq, Prod.mk.injEq] at h
      rw [← h.2]
      exact encrypt_frame x (List.replicate stream.length 0) stream n e c2 y2
        i h12 h13 he
  · intro dst src d2 x2 h
    rw [Ctx.XORKeyStream] at h
    by_cases h1 : x.eof = true ∧ blockLen ≤ src.length
    · rw [if_pos h1] at h
      cases h
    rw [if_neg h1] at h
    by_cases h2 : dst.length < src.length
    · rw [if_pos h2] at h
      cases h
    rw [if_neg h2] at h
    rcases he : x.Encrypt src dst with _ | r
    · rw [he] at h
      cases h
    · rcases r with ⟨n, e, c2, y2⟩
      rw [he] at h
      simp only [Option.map, Option.some.injEq, Prod.mk.injEq] at h
      rw [← h.2]
      exact encrypt_frame x src dst n e c2 y2 i h12 h13 he
  · intro b n e b2 x2 h
    rw [Ctx.Read] at h
    by_cases h1 : x.eof = true ∧ blockLen ≤ b.length
    · rw [if_pos h1] at h
      cases h
    rw [if_neg h1] at h
    exact encrypt_frame x (List.replicate b.length 0) b n e b2 x2 i h12 h13 h

/-- Witness for C9 at the base context and state word 0. -/
theorem c9_frame_witness :
    (∀ m c n e c2 x2, baseCtx.Encrypt m c = some (n, e, c2, x2) →
      x2.input.getD 0 0 = baseCtx.input.getD 0 0 ∧ x2.rounds = baseCtx.rounds ∧
      x2.parallel = baseCtx.parallel ∧
      x2.blocksPerChunk = baseCtx.blocksPerChunk ∧
      x2.guardCap = baseCtx.guardCap) ∧
    (∀ c m n e m2 x2, baseCtx.Decrypt c m = some (n, e, m2, x2) →
      x2.input.getD 0 0 = baseCtx.input.getD 0 0 ∧ x2.rounds = baseCtx.rounds ∧
      x2.parallel = baseCtx.parallel ∧
      x2.blocksPerChunk = baseCtx.blocksPerChunk ∧
      x2.guardCap = baseCtx.guardCap) ∧
    (∀ stream s2 x2, baseCtx.Keystream stream = some (s2, x2) →
      x2.input.getD 0 0 = baseCtx.input.getD 0 0 ∧ x2.rounds = baseCtx.rounds ∧
      x2.parallel = baseCtx.parallel ∧
      x2.blocksPerChunk = baseCtx.blocksPerChunk ∧
      x2.guardCap = baseCtx.guardCap) ∧
    (∀ dst src d2 x2, baseCtx.XORKeyStream dst src = some (d2, x2) →
      x2.input.getD 0 0 = baseCtx.input.getD 0 0 ∧ x2.rounds = baseCtx.rounds ∧
      x2.parallel = baseCtx.parallel ∧
      x2.blocksPerChunk = baseCtx.blocksPerChunk ∧
      x2.guardCap = baseCtx.guardCap) ∧
    (∀ b n e b2 x2, baseCtx.Read b = some (n, e, b2, x2) →
      x2.input.getD 0 0 = baseCtx.input.getD 0 0 ∧ x2.rounds = baseCtx.rounds ∧
      x2.parallel = baseCtx.parallel ∧
      x2.blocksPerChunk = baseCtx.blocksPerChunk ∧
      x2.guardCap = baseCtx.guardCap) :=
  c9_frame_effect baseCtx 0 (by decide) (by decide)

theorem seqKS_short_stuck (rounds len : Nat) (s : EngSt)
    (h : (seqKS rounds len s).1.length ≠ len) :
    (seqKS rounds len s).2.eof = true ∧ blockLen ≤ (seqKS rounds len s).2.idx := by
  induction len generalizing s with
  | zero => exact absurd rfl h
  | succ n ih =>
    rw [seqKS] at h ⊢
    by_cases h1 : blockLen ≤ s.idx
    · rw [if_pos h1] at h ⊢
      by_cases h2 : s.eof = true
      · rw [if_pos h2] at h ⊢
        exact ⟨h2, h1⟩
      · rw [if_neg h2] at h ⊢
        dsimp only at h ⊢
        simp only [List.length_cons] at h
        exact ih _ (fun hc => h (by rw [hc]))
    · rw [if_neg h1] at h ⊢
      dsimp only at h ⊢
      simp only [List.length_cons] at h
      exact ih _ (fun hc => h (by rw [hc]))

/-- C6: on a context whose exhaustion flag is set and whose buffered block
is fully consumed, every generation call requesting at least one byte is a
panic (`none`), not a repeat of the terminal signal: `Encrypt`,
`Keystream`, `XORKeyStream` and `Read` with a nonempty request, and
`Decrypt` even with an empty one (its exhaustion check precedes its size
check).  And a producing call on a well-formed, not-yet-consumed context
returns normally with the terminal flag raised exactly when the keystream
ran out (final state exhausted and fully consumed), a full count when the
flag is clear, never more than the requested count, and no output bytes
written beyond that count. -/
theorem c6_exhaustion (x y : Ctx)
    (he : x.eof = true) (hn : blockLen ≤ x.next)
    (h16 : y.input.length = 16)
    (h12 : y.input.getD 12 0 < two32) (h13 : y.input.getD 13 0 < two32)
    (hout : y.output.length = blockLen) (hnext : y.next ≤ blockLen)
    (hbpc : 0 < y.blocksPerChunk)
    (hsmall : y.blocksPerChunk < 72057594037927936) :
    (∀ m c, m ≠ [] → x.Encrypt m c = none) ∧
    (∀ c m, x.Decrypt c m = none) ∧
    (∀ s, s ≠ [] → x.Keystream s = none) ∧
    (∀ dst src, src ≠ [] → x.XORKeyStream dst src = none) ∧
    (∀ b, b ≠ [] → x.Read b = none) ∧
    (∀ m c, m ≠ [] → m.length ≤ blockLen * two64 → ¬ c.length < m.length →
      ¬(y.eof = true ∧ blockLen ≤ y.next) →
      ∃ n e c2 y2, y.Encrypt m c = some (n, e, c2, y2) ∧
        ((e = true) ↔ (y2.eof = true ∧ blockLen ≤ y2.next)) ∧
        (e = false → n = m.length) ∧
        n ≤ m.length ∧ c2.drop n = c.drop n) := by
  have hEncNone : ∀ m c : List Nat, m.length ≠ 0 → x.Encrypt m c = none := by
    intro m c hm0
    rw [Ctx.Encrypt, if_neg hm0]
    by_cases hclt : c.length < m.length
    · rw [if_pos hclt]
    · rw [if_neg hclt, if_pos ⟨he, hn⟩]
  refine ⟨fun m c hm => hEncNone m c (by simpa using hm), ?_, ?_, ?_, ?_, ?_⟩
  · intro c m
    rw [Ctx.Decrypt, if_pos ⟨he, hn⟩]
  · intro s hs
    rw [Ctx.Keystream]
    by_cases h1 : x.eof = true ∧ blockLen ≤ s.length
    · rw [if_pos h1]
    · rw [if_neg h1, hEncNone _ _ (by simpa using hs)]
      rfl
  · intro dst src hsrc
    rw [Ctx.XORKeyStream]
    by_cases h1 : x.eof = true ∧ blockLen ≤ src.length
    · rw [if_pos h1]
    · rw [if_neg h1]
      by_cases h2 : dst.length < src.length
      · rw [if_pos h2]
      · rw [if_neg h2, hEncNone _ _ (by simpa using hsrc)]
        rfl
  · intro b hb
    rw [Ctx.Read]
    by_cases h1 : x.eof = true ∧ blockLen ≤ b.length
    · rw [if_pos h1]
    · rw [if_neg h1]
      exact hEncNone _ _ (by simpa using hb)
  · intro m c hm hmlen hclt hentry
    have hm0 : m.length ≠ 0 := by simpa using hm
    obtain ⟨y2, henc, hinp, hnx, hef, -, -, -, -, -, -, -, -, -, -⟩ :=
      encrypt_any_val y m c h16 h12 h13 hout hnext hbpc hsmall hmlen hm0 hclt hentry
    refine ⟨_, _, _, y2, henc, ?_, ?_, ?_, ?_⟩
    · rw [hef, hnx]
      simp [decide_eq_true_eq]
    · intro hefalse
      rw [decide_eq_false_iff_not] at hefalse
      have hK : (seqKS y.rounds m.length
          ⟨y.input, y.output, y.next, y.eof⟩).1.length = m.length := by
        by_contra hne
        exact hefalse (seqKS_short_stuck y.rounds m.length _ hne)
      rw [List.length_zipWith, hK, Nat.min_self]
    · rw [List.length_zipWith]
      exact Nat.min_le_left _ _
    · rw [splice_zero]
      exact List.drop_left _ _

/-- Witness for C6 at a concrete exhausted context and the base context. -/
theorem c6_exhaustion_witness :
    (∀ m c, m ≠ [] →
      Ctx.Encrypt
        { input := List.replicate 16 0, output := List.replicate 64 0,
          next := 64, eof := true, rounds := 8, parallel := false,
          blocksPerChunk := 200, guardCap := 300 } m c = none) ∧
    (∀ c m,
      Ctx.Decrypt
        { input := List.replicate 16 0, output := List.replicate 64 0,
          next := 64, eof := true, rounds := 8, parallel := false,
          blocksPerChunk := 200, guardCap := 300 } c m = none) ∧
    (∀ s, s ≠ [] →
      Ctx.Keystream
        { input := List.replicate 16 0, output := List.replicate 64 0,
          next := 64, eof := true, rounds := 8, parallel := false,
          blocksPerChunk := 200, guardCap := 300 } s = none) ∧
    (∀ dst src, src ≠ [] →
      Ctx.XORKeyStream
        { input := List.replicate 16 0, output := List.replicate 64 0,
          next := 64, eof := true, rounds := 8, parallel := false,
          blocksPerChunk := 200, guardCap := 300 } dst src = none) ∧
    (∀ b, b ≠ [] →
      Ctx.Read
        { input := List.replicate 16 0, output := List.replicate 64 0,
          next := 64, eof := true, rounds := 8, parallel := false,
          blocksPerChunk := 200, guardCap := 300 } b = none) ∧
    (∀ m c, m ≠ [] → m.length ≤ blockLen * two64 → ¬ c.length < m.length →
      ¬(baseCtx.eof = true ∧ blockLen ≤ baseCtx.next) →
      ∃ n e c2 y2, baseCtx.Encrypt m c = some (n, e, c2, y2) ∧
        ((e = true) ↔ (y2.eof = true ∧ blockLen ≤ y2.next)) ∧
        (e = false → n = m.length) ∧
        n ≤ m.length ∧ c2.drop n = c.drop n) :=
  c6_exhaustion
    { input := List.replicate 16 0, output := List.replicate 64 0,
          next := 64, eof := true, rounds := 8, parallel := false,
          blocksPerChunk := 200, guardCap := 300 }
    baseCtx (by decide) (by decide) (by decide) (by decide)
    (by decide) (by decide) (by decide) (by decide) (by decide)

/-- A fresh context from `New` (plus `SetRounds`) is well formed: 16 state
words, both counter words zero, a 64-byte consumed buffer, exhaustion
clear, the requested round count and the default chunk tuning. -/
theorem New_SetRounds_shape (key iv : List Nat) (r : Nat)
    (hk : key.length = 16 ∨ key.length = 32) (hiv : iv.length = 8)
    (hr : r = 8 ∨ r = 12 ∨ r = 20) :
    ∃ X : Ctx, (New key iv).bind (fun x0 => x0.SetRounds r) = some X ∧
      X.input.length = 16 ∧ X.input.getD 12 0 = 0 ∧ X.input.getD 13 0 = 0 ∧
      X.output.length = blockLen ∧ X.next = blockLen ∧ X.eof = false ∧
      X.rounds = r ∧ X.blocksPerChunk = blocksPerChunkDefault := by
  rw [New, Ctx.KeySetup, if_neg (by omega)]
  simp only [Option.some_bind]
  rw [Ctx.IvSetup, if_neg (by omega)]
  simp only [Option.some_bind]
  rw [Ctx.SetRounds, if_pos hr]
  refine ⟨_, rfl, ?_, ?_, ?_, ?_, rfl, rfl, rfl, rfl⟩
  · simp [baseCtx, setCtr, Ctx.Seek]
  · rw [Ctx.Seek]
    dsimp only
    rw [getD_set_ne _ _ _ _ (by omega), getD_set_ne _ _ _ _ (by omega),
      getD_setCtr_12 _ _ (by simp [baseCtx])]
    simp
  · rw [Ctx.Seek]
    dsimp only
    rw [getD_set_ne _ _ _ _ (by omega), getD_set_ne _ _ _ _ (by omega),
      getD_setCtr_13 _ _ (by simp [baseCtx])]
    simp
  · simp [Ctx.Seek, baseCtx]

set_option maxHeartbeats 1000000 in
/-- C2: for every valid key (16 or 32 bytes), 8-byte nonce, rounds in
{8, 12, 20} and message of any Go-representable length, encrypting with a
freshly constructed context and then decrypting the resulting ciphertext
with a context freshly constructed from the same key, nonce and rounds
yields exactly the original message. -/
theorem c2_encrypt_decrypt_roundtrip (key iv m : List Nat) (r : Nat)
    (hk : key.length = 16 ∨ key.length = 32) (hiv : iv.length = 8)
    (hr : r = 8 ∨ r = 12 ∨ r = 20) (hm : m.length < 2 ^ 63) :
    ∃ (x x2 y2 : Ctx) (n1 n2 : Nat) (e1 e2 : Bool) (ct : List Nat),
      (New key iv).bind (fun x0 => x0.SetRounds r) = some x ∧
      x.Encrypt m (List.replicate m.length 0) = some (n1, e1, ct, x2) ∧
      x.Decrypt ct (List.replicate m.length 0) = some (n2, e2, m, y2) ∧
      n1 = m.length ∧ n2 = m.length := by
  obtain ⟨x, hmk, hlen, h12z, h13z, houtlen, hnx, hef, hrds, hbpcd⟩ :=
    New_SetRounds_shape key iv r hk hiv hr
  by_cases hm0 : m.length = 0
  · have hmnil : m = [] := List.length_eq_zero.mp hm0
    subst hmnil
    refine ⟨x, x, x, 0, 0, false, false, [], hmk, rfl, ?_, rfl, rfl⟩
    rw [Ctx.Decrypt, if_neg (by simp [hef]), if_neg (by simp)]
    rfl
  · have h63 : (2:Nat) ^ 63 = 9223372036854775808 := by norm_num
    rw [h63] at hm
    have hm' : m.length ≤ blockLen * two64 := by
      simp only [blockLen, two64]
      omega
    have h12lt : x.input.getD 12 0 < two32 := by rw [h12z]; exact two32_pos
    have h13lt : x.input.getD 13 0 < two32 := by rw [h13z]; exact two32_pos
    have hctr : ctrOf x.input = 0 := by
      rw [ctrOf, h12z, h13z]
      simp
    have hset : setCtr x.input 0 = x.input := by
      rw [← hctr]
      exact setCtr_ctrOf x.input hlen h12lt h13lt
    have hbpcpos : 0 < x.blocksPerChunk := by
      rw [hbpcd]
      norm_num [blocksPerChunkDefault]
    have hbpcsm : x.blocksPerChunk < 72057594037927936 := by
      rw [hbpcd]
      norm_num [blocksPerChunkDefault]
    have hKlen : (seqKS x.rounds m.length
        ⟨x.input, x.output, blockLen, false⟩).1.length = m.length := by
      rw [← hset]
      exact seqKS_len_eq x.rounds m.length x.input x.output 0 hlen
        (by norm_num [two64])
        (by simp only [blockLen, two64]; omega)
    -- the encrypting call
    obtain ⟨x2, henc, -, -, -, -, -, -, -, -, -, -, -, -, -⟩ :=
      encrypt_any_val x m (List.replicate m.length 0) hlen h12lt h13lt houtlen
        (le_of_eq hnx) hbpcpos hbpcsm hm' hm0 (by simp)
        (by simp [hef])
    rw [hnx, hef] at henc
    have hziplen : (m.zipWith (· ^^^ ·) (seqKS x.rounds m.length
        ⟨x.input, x.output, blockLen, false⟩).1).length = m.length := by
      rw [List.length_zipWith, hKlen, Nat.min_self]
    have hct : splice (List.replicate m.length 0) 0
        (m.zipWith (· ^^^ ·) (seqKS x.rounds m.length
          ⟨x.input, x.output, blockLen, false⟩).1) =
        m.zipWith (· ^^^ ·) (seqKS x.rounds m.length
          ⟨x.input, x.output, blockLen, false⟩).1 := by
      rw [splice_zero, List.drop_eq_nil_of_le (by rw [List.length_replicate, hziplen]),
        List.append_nil]
    rw [hct] at henc
    -- the decrypting call
    obtain ⟨y2, hdec, -, -, -, -, -, -, -, -, -, -, -, -, -⟩ :=
      encrypt_any_val x
        (m.zipWith (· ^^^ ·) (seqKS x.rounds m.length
          ⟨x.input, x.output, blockLen, false⟩).1)
        (List.replicate m.length 0) hlen h12lt h13lt houtlen
        (le_of_eq hnx) hbpcpos hbpcsm (by rw [hziplen]; exact hm')
        (by rw [hziplen]; exact hm0) (by simp [hziplen])
        (by simp [hef])
    rw [hnx, hef, hziplen] at hdec
    have hcancel : (m.zipWith (· ^^^ ·) (seqKS x.rounds m.length
          ⟨x.input, x.output, blockLen, false⟩).1).zipWith (· ^^^ ·)
        (seqKS x.rounds m.length ⟨x.input, x.output, blockLen, false⟩).1 = m :=
      zipWith_xor_cancel _ _ (le_of_eq hKlen.symm)
    rw [hcancel] at hdec
    have hpt : splice (List.replicate m.length 0) 0 m = m := by
      rw [splice_zero, List.drop_eq_nil_of_le (by rw [List.length_replicate]),
        List.append_nil]
    rw [hpt] at hdec
    refine ⟨x, x2, y2, _, m.length, _,
      decide ((seqKS x.rounds m.length
        ⟨x.input, x.output, blockLen, false⟩).2.eof = true ∧ blockLen ≤
        (seqKS x.rounds m.length ⟨x.input, x.output, blockLen, false⟩).2.idx),
      _, hmk, henc, ?_, hziplen, rfl⟩
    rw [Ctx.Decrypt, if_neg (by simp [hef]),
      if_neg (by rw [List.length_replicate, hziplen]; omega)]
    exact hdec

/-- Witness for C2 with a 32-zero-byte key, an 8-zero-byte nonce, 8 rounds
and the message [1, 2, 3]. -/
theorem c2_roundtrip_witness :
    ∃ (x x2 y2 : Ctx) (n1 n2 : Nat) (e1 e2 : Bool) (ct : List Nat),
      (New (List.replicate 32 0) (List.replicate 8 0)).bind
        (fun x0 => x0.SetRounds 8) = some x ∧
      x.Encrypt [1, 2, 3] (List.replicate ([1, 2, 3] : List Nat).length 0) =
        some (n1, e1, ct, x2) ∧
      x.Decrypt ct (List.replicate ([1, 2, 3] : List Nat).length 0) =
        some (n2, e2, [1, 2, 3], y2) ∧
      n1 = ([1, 2, 3] : List Nat).length ∧ n2 = ([1, 2, 3] : List Nat).length :=
  c2_encrypt_decrypt_roundtrip (List.replicate 32 0) (List.replicate 8 0)
    [1, 2, 3] 8 (by decide) (by decide) (Or.inl rfl) (by norm_num)

end ChaCha20

